import Mathlib

/-!
Shallow embedding of the interactive configuration editor of
`configuration.py` (repository `carmine560/trading-peripherals`), together
with proofs about the properties claimed of it.

Modelling conventions:
* Python strings are Lean `String`s (a list of characters); the embedding is
  faithful on printable ASCII text, and Python's `str.lower`/`str.strip` are
  modelled by ASCII character maps.
* `configparser` documents are ordered association lists
  (section name -> ordered list of option-name/value pairs); option names are
  passed through `optionxform` (ASCII lower-casing), and dictionary-backed
  option sets have structurally unique keys, so key removal is a filter.
* `ast.literal_eval` is modelled by an executable recursive-descent parser for
  the fragment of Python literals the editor produces and consumes: quoted
  strings (single or double quotes, with backslash escapes for backslashes and
  quotes), tuples (including parenthesised single literals and trailing
  commas), lists and string-keyed dictionaries.  Numeric, boolean and `None`
  literals are outside the modelled fragment; note that at the option level
  they receive the same treatment as unparsable text (the stored text is kept
  as an opaque scalar), because the editor only dispatches on dict/tuple/list
  results.
* Process exits (`sys.exit`) are explicit constructors of result types, and
  writes of the persisted file (`write_config`) update a `persisted` snapshot
  carried next to the in-memory document.
-/

namespace Configuration

/-! ## Character helpers -/

/-- The single-quote character `'`. -/
def squote : Char := Char.ofNat 39

/-- The double-quote character. -/
def dquote : Char := Char.ofNat 34

/-- The backslash character. -/
def bslash : Char := Char.ofNat 92

/-- The opening-brace character. -/
def braceO : Char := Char.ofNat 123

/-- The closing-brace character. -/
def braceC : Char := Char.ofNat 125

/-- ASCII whitespace, as recognised by both Python's parser and `str.strip`. -/
def isWsChar (c : Char) : Bool :=
  c = ' ' || c = Char.ofNat 9 || c = Char.ofNat 10 || c = Char.ofNat 13

/-- Printable ASCII; the fragment on which the embedding of Python `repr`
is faithful (Python escapes characters outside this range). -/
def goodChar (c : Char) : Bool := 32 ≤ c.toNat && c.toNat ≤ 126

/-- ASCII decimal digit, by code point. -/
def isDigitChar (c : Char) : Bool := 48 ≤ c.toNat && c.toNat ≤ 57

/-- The decimal digit characters. -/
def digitChar (d : Nat) : Char :=
  if d = 0 then '0' else if d = 1 then '1' else if d = 2 then '2'
  else if d = 3 then '3' else if d = 4 then '4' else if d = 5 then '5'
  else if d = 6 then '6' else if d = 7 then '7' else if d = 8 then '8' else '9'

/-- The numeric value of a big-endian ASCII digit string. -/
def digitsVal (l : List Char) : Nat := l.foldl (fun a c => 10 * a + (c.toNat - 48)) 0

/-- Little-endian decimal digits of `n` (fuel-bounded; `n` itself is ample
fuel since the digit count is at most `n`). -/
def natToRev : Nat → Nat → List Char
  | 0, _ => []
  | Nat.succ f, n => if n = 0 then [] else digitChar (n % 10) :: natToRev f (n / 10)

/-- Python `str()` of a natural number. -/
def natChars (n : Nat) : List Char := if n = 0 then ['0'] else (natToRev n n).reverse

/-- Python `str()` of an integer. -/
def intChars (n : Int) : List Char :=
  if n < 0 then '-' :: natChars n.natAbs else natChars n.natAbs

/-- Python `str.lower` on the ASCII fragment. -/
def pyLower (s : String) : String := ⟨s.data.map Char.toLower⟩

/-- Python `str.strip` on the ASCII fragment. -/
def pyStrip (s : String) : String :=
  ⟨((s.data.dropWhile isWsChar).reverse.dropWhile isWsChar).reverse⟩

/-! ## The value data model (spec section 3)

`Value` is the decoded, typed in-memory form of a stored option text:
a scalar string, an ordered tuple, an ordered string-keyed dictionary, or a
list (a list whose members are all tuples is the TupleList kind). -/

/-- Decoded values of the value codec. -/
inductive Value where
  | str (s : String)
  | intLit (n : Int)
  | tup (xs : List Value)
  | list (xs : List Value)
  | dict (kvs : List (String × Value))
deriving BEq

/-- Whether a decoded value is a tuple (`isinstance(item, tuple)`). -/
def isTup : Value → Bool
  | .tup _ => true
  | _ => false

/-- The `isinstance` dispatch of `modify_option` (configuration.py lines
483-504): a decoded result is treated as structured when it is a dict, a
tuple, or a list all of whose members are tuples; anything else leaves the
stored text in place as an opaque scalar. -/
def structuredOf : Value → Bool
  | .tup _ => true
  | .dict _ => true
  | .list xs => xs.all isTup
  | .str _ => false
  | .intLit _ => false

/-! ## Python `repr`/`str` of the modelled values (the encoder) -/

/-- Escape one character of a single-quoted Python string literal. -/
def escSingle (c : Char) : List Char :=
  if c = bslash then [bslash, bslash]
  else if c = squote then [bslash, squote]
  else [c]

/-- Escape one character of a double-quoted Python string literal
(chosen by `repr` only when the string holds a single quote and no double
quote, so the double quote itself never needs escaping). -/
def escDouble (c : Char) : List Char :=
  if c = bslash then [bslash, bslash] else [c]

/-- Python `repr` of a string: single-quoted unless the text contains a
single quote and no double quote, in which case double-quoted. -/
def pyQuote (s : String) : List Char :=
  if s.data.contains squote && !(s.data.contains dquote) then
    dquote :: (s.data.flatMap escDouble ++ [dquote])
  else
    squote :: (s.data.flatMap escSingle ++ [squote])

mutual

/-- Characters of Python `str()` of a decoded value (for the structured
kinds this is `repr`: quoted strings, `(x,)` singleton tuples, `, ` and
`: ` separators). -/
def pyReprChars : Value → List Char
  | .str s => pyQuote s
  | .intLit n => intChars n
  | .tup [] => ['(', ')']
  | .tup [v] => '(' :: (pyReprChars v ++ [',', ')'])
  | .tup (v :: w :: vs) => '(' :: (pyJoin (v :: w :: vs) ++ [')'])
  | .list xs => '[' :: (pyJoin xs ++ [']'])
  | .dict kvs => braceO :: (pyPairsJoin kvs ++ [braceC])

/-- Elements joined with `, `. -/
def pyJoin : List Value → List Char
  | [] => []
  | [v] => pyReprChars v
  | v :: w :: vs => pyReprChars v ++ (',' :: ' ' :: pyJoin (w :: vs))

/-- Dictionary items `key: value` joined with `, `. -/
def pyPairsJoin : List (String × Value) → List Char
  | [] => []
  | [(k, v)] => pyQuote k ++ (':' :: ' ' :: pyReprChars v)
  | (k, v) :: p :: ps =>
      pyQuote k ++ (':' :: ' ' :: (pyReprChars v ++ (',' :: ' ' :: pyPairsJoin (p :: ps))))

end

/-- Python `str()` of a decoded value, as a string. -/
def pyRepr (v : Value) : String := ⟨pyReprChars v⟩

/-- The canonical serialisation of a value as stored in the document:
scalars are stored verbatim, structured values as their `str()` text
(`config[section][option] = str(...)` in `modify_option`/`modify_section`). -/
def encode : Value → String
  | .str s => s
  | v => pyRepr v

/-! ## The literal parser (the decoder's core)

An executable model of `ast.literal_eval` on the modelled fragment.  All
functions take explicit fuel; `parseLiteral` supplies fuel ample for its
input length. -/

/-- Drop leading ASCII whitespace. -/
def skipWs : List Char → List Char
  | [] => []
  | c :: rest => if isWsChar c then skipWs rest else c :: rest

/-- Parse the body of a quoted string after the opening quote `q`, up to and
including the closing quote; understands backslash escapes of backslashes and
either quote. Returns the unescaped content and the remaining input. -/
def parseStrBody (q : Char) : List Char → Option (List Char × List Char)
  | [] => none
  | c :: rest =>
    if c = q then some ([], rest)
    else if c = bslash then
      match rest with
      | [] => none
      | e :: rest2 =>
        if e = bslash || e = squote || e = dquote then
          (parseStrBody q rest2).map (fun p => (e :: p.1, p.2))
        else none
    else (parseStrBody q rest).map (fun p => (c :: p.1, p.2))

/-- Parse a quoted Python string literal. -/
def parseQuoted : List Char → Option (String × List Char)
  | [] => none
  | c :: rest =>
    if c = squote then (parseStrBody squote rest).map (fun p => (⟨p.1⟩, p.2))
    else if c = dquote then (parseStrBody dquote rest).map (fun p => (⟨p.1⟩, p.2))
    else none

/-- The longest leading run of decimal digits and its value. -/
def parseNumCore (l : List Char) : Option (Nat × List Char) :=
  let ds := l.takeWhile isDigitChar
  if ds.isEmpty then none else some (digitsVal ds, l.dropWhile isDigitChar)

/-- Parse a plain decimal integer literal with an optional sign (the numeric
atoms of `ast.literal_eval` that Python `str()` of a decoded value can
produce; floats, underscores and radix prefixes are outside the fragment). -/
def parseNum : List Char → Option (Value × List Char)
  | [] => none
  | c :: rest =>
    if c = '-' then (parseNumCore rest).map (fun p => (Value.intLit (-(p.1 : Int)), p.2))
    else if c = '+' then (parseNumCore rest).map (fun p => (Value.intLit ((p.1 : Int)), p.2))
    else (parseNumCore (c :: rest)).map (fun p => (Value.intLit ((p.1 : Int)), p.2))

mutual

/-- Parse one literal. -/
def parseVal : Nat → List Char → Option (Value × List Char)
  | 0, _ => none
  | Nat.succ f, cs => parseValCore f (skipWs cs)

/-- Dispatch on the first significant character of a literal. -/
def parseValCore : Nat → List Char → Option (Value × List Char)
  | 0, _ => none
  | Nat.succ _, [] => none
  | Nat.succ f, c :: rest =>
    if c = squote || c = dquote then
      (parseQuoted (c :: rest)).map (fun p => (Value.str p.1, p.2))
    else if c = '(' then parseParen f rest
    else if c = '[' then (parseEls f ']' rest).map (fun p => (Value.list p.1, p.2))
    else if c = braceO then (parsePairs f rest).map (fun p => (Value.dict p.1, p.2))
    else if isDigitChar c || c = '-' || c = '+' then parseNum (c :: rest)
    else none

/-- After an opening parenthesis: an empty tuple, a parenthesised literal,
or a tuple of one or more elements. -/
def parseParen : Nat → List Char → Option (Value × List Char)
  | 0, _ => none
  | Nat.succ f, cs => parseParenCore f (skipWs cs)

/-- After an opening parenthesis, whitespace skipped. -/
def parseParenCore : Nat → List Char → Option (Value × List Char)
  | 0, _ => none
  | Nat.succ _, [] => none
  | Nat.succ f, c1 :: rest1 =>
    if c1 = ')' then some (Value.tup [], rest1)
    else parseParenAfter f (parseVal f (c1 :: rest1))

/-- After the first element inside parentheses. -/
def parseParenAfter : Nat → Option (Value × List Char) → Option (Value × List Char)
  | 0, _ => none
  | Nat.succ _, none => none
  | Nat.succ f, some (v, cs2) => parseParenClose f v (skipWs cs2)

/-- Close a parenthesised literal, or continue as a tuple after a comma
(trailing commas allowed, as in Python). -/
def parseParenClose : Nat → Value → List Char → Option (Value × List Char)
  | 0, _, _ => none
  | Nat.succ _, _, [] => none
  | Nat.succ f, v, c2 :: rest2 =>
    if c2 = ')' then some (v, rest2)
    else if c2 = ',' then
      (parseEls f ')' rest2).map (fun p => (Value.tup (v :: p.1), p.2))
    else none

/-- Parse comma-separated literals up to the closing bracket `close`
(trailing commas allowed, as in Python). -/
def parseEls : Nat → Char → List Char → Option (List Value × List Char)
  | 0, _, _ => none
  | Nat.succ f, close, cs => parseElsCore f close (skipWs cs)

/-- One element-list step, whitespace skipped. -/
def parseElsCore : Nat → Char → List Char → Option (List Value × List Char)
  | 0, _, _ => none
  | Nat.succ _, _, [] => none
  | Nat.succ f, close, c :: rest =>
    if c = close then some ([], rest)
    else parseElsAfter f close (parseVal f (c :: rest))

/-- After one element of an element list. -/
def parseElsAfter : Nat → Char → Option (Value × List Char) → Option (List Value × List Char)
  | 0, _, _ => none
  | Nat.succ _, _, none => none
  | Nat.succ f, close, some (v, cs2) => parseElsSep f close v (skipWs cs2)

/-- Separator or closing bracket after an element. -/
def parseElsSep : Nat → Char → Value → List Char → Option (List Value × List Char)
  | 0, _, _, _ => none
  | Nat.succ _, _, _, [] => none
  | Nat.succ f, close, v, c2 :: rest2 =>
    if c2 = ',' then (parseEls f close rest2).map (fun p => (v :: p.1, p.2))
    else if c2 = close then some ([v], rest2)
    else none

/-- Parse comma-separated `key: value` items of a dictionary display up to
the closing brace (string keys; trailing commas allowed). -/
def parsePairs : Nat → List Char → Option (List (String × Value) × List Char)
  | 0, _ => none
  | Nat.succ f, cs => parsePairsCore f (skipWs cs)

/-- One dictionary-item step, whitespace skipped. -/
def parsePairsCore : Nat → List Char → Option (List (String × Value) × List Char)
  | 0, _ => none
  | Nat.succ _, [] => none
  | Nat.succ f, c :: rest =>
    if c = braceC then some ([], rest)
    else parsePairsKey f (parseQuoted (c :: rest))

/-- After the key of a dictionary item. -/
def parsePairsKey : Nat → Option (String × List Char) → Option (List (String × Value) × List Char)
  | 0, _ => none
  | Nat.succ _, none => none
  | Nat.succ f, some (k, cs2) => parsePairsColon f k (skipWs cs2)

/-- The colon between a key and its value. -/
def parsePairsColon : Nat → String → List Char → Option (List (String × Value) × List Char)
  | 0, _, _ => none
  | Nat.succ _, _, [] => none
  | Nat.succ f, k, c2 :: rest2 =>
    if c2 = ':' then parsePairsVal f k (parseVal f rest2) else none

/-- After the value of a dictionary item. -/
def parsePairsVal : Nat → String → Option (Value × List Char) → Option (List (String × Value) × List Char)
  | 0, _, _ => none
  | Nat.succ _, _, none => none
  | Nat.succ f, k, some (v, cs3) => parsePairsSep f k v (skipWs cs3)

/-- Separator or closing brace after a dictionary item. -/
def parsePairsSep : Nat → String → Value → List Char → Option (List (String × Value) × List Char)
  | 0, _, _, _ => none
  | Nat.succ _, _, _, [] => none
  | Nat.succ f, k, v, c3 :: rest3 =>
    if c3 = ',' then (parsePairs f rest3).map (fun p => ((k, v) :: p.1, p.2))
    else if c3 = braceC then some ([(k, v)], rest3)
    else none

end

/-- Attempt to parse a complete stored text as one literal of the modelled
fragment (the model of a successful `ast.literal_eval`). -/
def parseLiteral (t : String) : Option Value :=
  match parseVal (8 * t.length + 8) t.data with
  | some (v, rest) => if skipWs rest = [] then some v else none
  | none => none

/-- Decoding a stored text: literal evaluation followed by the structured
dispatch of `modify_option`; unparsable or unstructured text is kept verbatim
as an opaque scalar. -/
def decode (t : String) : Value :=
  match parseLiteral t with
  | some v => if structuredOf v then v else .str t
  | none => .str t

/-! ## Round-trip: fuel accounting -/

mutual

/-- Fuel sufficient for `parseVal` to parse the printed form of a value. -/
def fuelV : Value → Nat
  | .str _ => 2
  | .intLit _ => 2
  | .tup [] => 4
  | .tup (v :: vs) => 8 + fuelV v + fuelEls vs
  | .list xs => 2 + fuelEls xs
  | .dict ps => 2 + fuelPairs ps

/-- Fuel sufficient for `parseEls` on a printed element list. -/
def fuelEls : List Value → Nat
  | [] => 2
  | v :: vs => 8 + fuelV v + fuelEls vs

/-- Fuel sufficient for `parsePairs` on printed dictionary items. -/
def fuelPairs : List (String × Value) → Nat
  | [] => 2
  | (_, v) :: ps => 8 + fuelV v + fuelPairs ps

end

theorem fuelV_pos (v : Value) : 2 ≤ fuelV v := by
  cases v with
  | str s => simp [fuelV]
  | intLit n => simp [fuelV]
  | tup xs => cases xs <;> simp [fuelV] <;> omega
  | list xs => simp [fuelV]
  | dict ps => simp [fuelV]

theorem fuelEls_pos (xs : List Value) : 2 ≤ fuelEls xs := by
  cases xs <;> simp [fuelEls] <;> omega

theorem fuelPairs_pos (ps : List (String × Value)) : 2 ≤ fuelPairs ps := by
  cases ps with
  | nil => simp [fuelPairs]
  | cons p ps => obtain ⟨k, v⟩ := p; simp [fuelPairs]; omega

/-! ## Round-trip: string literals -/

theorem parseStrBody_escSingle (l rest : List Char) :
    parseStrBody squote (l.flatMap escSingle ++ squote :: rest) = some (l, rest) := by
  have hbs : ¬(bslash = squote) := by decide
  induction l with
  | nil =>
    rw [List.flatMap_nil, List.nil_append, parseStrBody.eq_def]
    simp
  | cons c l ih =>
    by_cases hb : c = bslash
    · subst hb
      simp only [List.flatMap_cons, escSingle, if_pos rfl, List.cons_append,
        List.append_assoc]
      rw [parseStrBody.eq_def]
      simp [hbs, ih]
    · by_cases hq : c = squote
      · subst hq
        simp only [List.flatMap_cons, escSingle, hb, ite_false, if_pos rfl,
          List.cons_append, List.append_assoc]
        rw [parseStrBody.eq_def]
        simp [hbs, ih]
      · simp only [List.flatMap_cons, escSingle, hb, hq, ite_false,
          List.cons_append, List.singleton_append]
        rw [parseStrBody.eq_def]
        simp [hb, hq, ih]

theorem parseStrBody_escDouble (l rest : List Char) (h : ∀ c ∈ l, c ≠ dquote) :
    parseStrBody dquote (l.flatMap escDouble ++ dquote :: rest) = some (l, rest) := by
  have hbd : ¬(bslash = dquote) := by decide
  induction l with
  | nil =>
    rw [List.flatMap_nil, List.nil_append, parseStrBody.eq_def]
    simp
  | cons c l ih =>
    have hc : c ≠ dquote := h c (by simp)
    have ih' := ih (fun x hx => h x (by simp [hx]))
    by_cases hb : c = bslash
    · subst hb
      simp only [List.flatMap_cons, escDouble, if_pos rfl, List.cons_append,
        List.append_assoc]
      rw [parseStrBody.eq_def]
      simp [hbd, ih']
    · simp only [List.flatMap_cons, escDouble, hb, ite_false,
        List.cons_append, List.singleton_append]
      rw [parseStrBody.eq_def]
      simp [hb, hc, ih']

theorem parseQuoted_pyQuote (s : String) (rest : List Char) :
    parseQuoted (pyQuote s ++ rest) = some (s, rest) := by
  rw [pyQuote]
  by_cases h : (s.data.contains squote && !(s.data.contains dquote)) = true
  · rw [if_pos h]
    have hnd : ∀ c ∈ s.data, c ≠ dquote := by
      intro c hc hcd
      have h2 := (Bool.and_eq_true _ _).mp h |>.2
      rw [Bool.not_eq_true'] at h2
      subst hcd
      simp [List.contains_eq_any_beq] at h2
      exact h2 hc
    have hds : ¬(dquote = squote) := by decide
    rw [parseQuoted.eq_def]
    simp only [List.cons_append, List.append_assoc, List.cons_append]
    simp [hds, parseStrBody_escDouble s.data rest hnd]
  · rw [if_neg h]
    rw [parseQuoted.eq_def]
    simp only [List.cons_append, List.append_assoc]
    simp [parseStrBody_escSingle s.data rest]

/-! ## Round-trip: integer literals -/

theorem digitChar_facts (d : Nat) (h : d < 10) :
    isDigitChar (digitChar d) = true ∧ (digitChar d).toNat = 48 + d ∧
    ¬(digitChar d = squote) ∧ ¬(digitChar d = dquote) ∧ ¬(digitChar d = '(') ∧
    ¬(digitChar d = '[') ∧ ¬(digitChar d = braceO) ∧ isWsChar (digitChar d) = false ∧
    ¬(digitChar d = '-') ∧ ¬(digitChar d = '+') ∧ ¬(digitChar d = ')') ∧
    ¬(digitChar d = ']') ∧ ¬(digitChar d = ',') ∧ ¬(digitChar d = ':') ∧
    ¬(digitChar d = braceC) := by
  interval_cases d <;> exact ⟨rfl, rfl, by decide, by decide, by decide, by decide,
    by decide, by decide, by decide, by decide, by decide, by decide, by decide,
    by decide, by decide⟩

theorem natToRev_mem : ∀ f n, ∀ c ∈ natToRev f n, ∃ d, d < 10 ∧ c = digitChar d := by
  intro f
  induction f with
  | zero => intro n c hc; exact absurd hc (by simp [natToRev])
  | succ f ih =>
    intro n c hc
    rw [natToRev] at hc
    by_cases hn : n = 0
    · rw [if_pos hn] at hc
      exact absurd hc (by simp)
    · rw [if_neg hn] at hc
      rcases List.mem_cons.mp hc with h | h
      · exact ⟨n % 10, Nat.mod_lt _ (by omega), h⟩
      · exact ih (n / 10) c h

theorem natToRev_val : ∀ f n, n ≤ f → digitsVal ((natToRev f n).reverse) = n := by
  intro f
  induction f with
  | zero =>
    intro n hn
    interval_cases n
    rfl
  | succ f ih =>
    intro n hn
    by_cases hz : n = 0
    · subst hz
      rfl
    · rw [natToRev, if_neg hz]
      rw [List.reverse_cons]
      rw [show digitsVal = List.foldl (fun a c => 10 * a + (c.toNat - 48)) 0 from rfl]
      rw [List.foldl_append]
      rw [show List.foldl (fun a c => 10 * a + (c.toNat - 48)) 0 (natToRev f (n / 10)).reverse
        = digitsVal ((natToRev f (n / 10)).reverse) from rfl]
      rw [ih (n / 10) (by omega)]
      simp only [List.foldl_cons, List.foldl_nil]
      have hd := (digitChar_facts (n % 10) (Nat.mod_lt _ (by omega))).2.1
      rw [hd]
      omega

theorem natChars_spec (n : Nat) :
    (∀ c ∈ natChars n, ∃ d, d < 10 ∧ c = digitChar d) ∧ natChars n ≠ [] ∧
    digitsVal (natChars n) = n := by
  by_cases hz : n = 0
  · subst hz
    refine ⟨?_, by simp [natChars], rfl⟩
    intro c hc
    rw [natChars] at hc
    simp at hc
    exact ⟨0, by omega, by rw [hc]; rfl⟩
  · rw [natChars, if_neg hz]
    refine ⟨?_, ?_, natToRev_val n n (le_refl n)⟩
    · intro c hc
      exact natToRev_mem n n c (List.mem_reverse.mp hc)
    · obtain ⟨g, hg⟩ : ∃ g, n = Nat.succ g := ⟨n - 1, by omega⟩
      rw [hg, natToRev, if_neg (by omega)]
      simp

theorem takeWhile_all_append (p : Char → Bool) :
    ∀ (l rest : List Char), (∀ c ∈ l, p c = true) →
      (rest = [] ∨ ∃ c cs, rest = c :: cs ∧ p c = false) →
      (l ++ rest).takeWhile p = l ∧ (l ++ rest).dropWhile p = rest := by
  intro l
  induction l with
  | nil =>
    intro rest _ hrest
    rcases hrest with rfl | ⟨c, cs, rfl, hc⟩
    · exact ⟨rfl, rfl⟩
    · rw [List.nil_append, List.takeWhile_cons, List.dropWhile_cons, hc]
      exact ⟨rfl, rfl⟩
  | cons a l ih =>
    intro rest hall hrest
    have ha : p a = true := hall a (by simp)
    obtain ⟨h1, h2⟩ := ih rest (fun c hc => hall c (by simp [hc])) hrest
    rw [List.cons_append, List.takeWhile_cons, List.dropWhile_cons, ha]
    simp only [if_true]
    rw [h1, h2]
    exact ⟨rfl, rfl⟩

/-- One step of rest after a printed numeral never begins with a digit. -/
def restDigitFree : List Char → Bool
  | [] => true
  | c :: _ => !(isDigitChar c)

theorem parseNumCore_natChars (n : Nat) (rest : List Char)
    (hrest : restDigitFree rest = true) :
    parseNumCore (natChars n ++ rest) = some (n, rest) := by
  obtain ⟨hmem, hne, hval⟩ := natChars_spec n
  have hall : ∀ c ∈ natChars n, isDigitChar c = true := by
    intro c hc
    obtain ⟨d, hd, rfl⟩ := hmem c hc
    exact (digitChar_facts d hd).1
  have hrest2 : rest = [] ∨ ∃ c cs, rest = c :: cs ∧ isDigitChar c = false := by
    cases rest with
    | nil => exact Or.inl rfl
    | cons c cs =>
      refine Or.inr ⟨c, cs, rfl, ?_⟩
      rw [restDigitFree] at hrest
      cases hx : isDigitChar c
      · rfl
      · rw [hx] at hrest
        exact absurd hrest (by simp)
  obtain ⟨htake, hdrop⟩ := takeWhile_all_append isDigitChar (natChars n) rest hall hrest2
  rw [parseNumCore]
  simp only [htake, hdrop]
  rw [if_neg (by simp [List.isEmpty_iff, hne]), hval]

theorem parseNum_intChars (n : Int) (rest : List Char)
    (hrest : restDigitFree rest = true) :
    parseNum (intChars n ++ rest) = some (Value.intLit n, rest) := by
  by_cases hneg : n < 0
  · rw [intChars, if_pos hneg, List.cons_append, parseNum, if_pos rfl,
      parseNumCore_natChars n.natAbs rest hrest]
    have hv : -(n.natAbs : Int) = n := by omega
    show some (Value.intLit (-(n.natAbs : Int)), rest) = some (Value.intLit n, rest)
    rw [hv]
  · rw [intChars, if_neg hneg]
    obtain ⟨hmem, hne, -⟩ := natChars_spec n.natAbs
    cases hnc : natChars n.natAbs with
    | nil => exact absurd hnc hne
    | cons c l =>
      have hcd : ∃ d, d < 10 ∧ c = digitChar d := hmem c (by rw [hnc]; simp)
      obtain ⟨d, hd, rfl⟩ := hcd
      obtain ⟨-, -, -, -, -, -, -, -, hm, hp, -⟩ := digitChar_facts d hd
      rw [List.cons_append, parseNum, if_neg hm, if_neg hp, ← List.cons_append, ← hnc,
        parseNumCore_natChars n.natAbs rest hrest]
      have hv : ((n.natAbs : Int)) = n := by omega
      show some (Value.intLit ((n.natAbs : Int)), rest) = some (Value.intLit n, rest)
      rw [hv]

/-! ## Round-trip: head shapes and whitespace -/

/-- The characters a printed literal can start with. -/
def isReprHead (c : Char) : Prop :=
  c = squote ∨ c = dquote ∨ c = '(' ∨ c = '[' ∨ c = braceO ∨ c = '-' ∨
    ∃ d, d < 10 ∧ c = digitChar d

theorem pyQuote_head (s : String) :
    ∃ l, pyQuote s = squote :: l ∨ pyQuote s = dquote :: l := by
  rw [pyQuote]
  by_cases h : (s.data.contains squote && !(s.data.contains dquote)) = true
  · exact ⟨_, Or.inr (by rw [if_pos h])⟩
  · exact ⟨_, Or.inl (by rw [if_neg h])⟩

theorem pyReprChars_head (v : Value) :
    ∃ c l, pyReprChars v = c :: l ∧ isReprHead c := by
  cases v with
  | str s =>
    obtain ⟨l, h | h⟩ := pyQuote_head s
    · exact ⟨squote, l, by simp [pyReprChars, h], Or.inl rfl⟩
    · exact ⟨dquote, l, by simp [pyReprChars, h], Or.inr (Or.inl rfl)⟩
  | intLit n =>
    by_cases hneg : n < 0
    · refine ⟨'-', natChars n.natAbs, ?_, ?_⟩
      · rw [pyReprChars, intChars, if_pos hneg]
      · rw [isReprHead]
        exact Or.inr (Or.inr (Or.inr (Or.inr (Or.inr (Or.inl rfl)))))
    · obtain ⟨hmem, hne, -⟩ := natChars_spec n.natAbs
      cases hnc : natChars n.natAbs with
      | nil => exact absurd hnc hne
      | cons c l =>
        obtain ⟨d, hd, rfl⟩ := hmem c (by rw [hnc]; simp)
        refine ⟨digitChar d, l, ?_, ?_⟩
        · rw [pyReprChars, intChars, if_neg hneg, hnc]
        · rw [isReprHead]
          exact Or.inr (Or.inr (Or.inr (Or.inr (Or.inr (Or.inr ⟨d, hd, rfl⟩)))))
  | tup xs =>
    match xs with
    | [] => exact ⟨'(', _, by rw [pyReprChars], by simp [isReprHead]⟩
    | [v] => exact ⟨'(', _, by rw [pyReprChars], by simp [isReprHead]⟩
    | v :: w :: vs => exact ⟨'(', _, by rw [pyReprChars], by simp [isReprHead]⟩
  | list xs => exact ⟨'[', _, by rw [pyReprChars], by simp [isReprHead]⟩
  | dict ps => exact ⟨braceO, _, by rw [pyReprChars], by simp [isReprHead]⟩

theorem isReprHead_facts {c : Char} (h : isReprHead c) :
    isWsChar c = false ∧ c ≠ ')' ∧ c ≠ ']' ∧ c ≠ ',' ∧ c ≠ ':' ∧ c ≠ braceC := by
  rcases h with h | h | h | h | h | h | ⟨d, hd, h⟩ <;> subst h
  · exact ⟨by decide, by decide, by decide, by decide, by decide, by decide⟩
  · exact ⟨by decide, by decide, by decide, by decide, by decide, by decide⟩
  · exact ⟨by decide, by decide, by decide, by decide, by decide, by decide⟩
  · exact ⟨by decide, by decide, by decide, by decide, by decide, by decide⟩
  · exact ⟨by decide, by decide, by decide, by decide, by decide, by decide⟩
  · exact ⟨by decide, by decide, by decide, by decide, by decide, by decide⟩
  · obtain ⟨-, -, -, -, -, -, -, hws, -, -, hpr, hbr, hcm, hco, hbc⟩ := digitChar_facts d hd
    exact ⟨hws, hpr, hbr, hcm, hco, hbc⟩

theorem skipWs_cons_not {c : Char} (h : isWsChar c = false) (cs : List Char) :
    skipWs (c :: cs) = c :: cs := by
  rw [skipWs, h]
  simp

theorem skipWs_cons_ws {c : Char} (h : isWsChar c = true) (cs : List Char) :
    skipWs (c :: cs) = skipWs cs := by
  rw [skipWs, h]
  simp

theorem parseVal_ws (f : Nat) {c : Char} (h : isWsChar c = true) (cs : List Char) :
    parseVal f (c :: cs) = parseVal f cs := by
  cases f with
  | zero => rfl
  | succ f => rw [parseVal, parseVal, skipWs_cons_ws h]

theorem parseEls_ws (f : Nat) (close : Char) {c : Char} (h : isWsChar c = true)
    (cs : List Char) : parseEls f close (c :: cs) = parseEls f close cs := by
  cases f with
  | zero => rfl
  | succ f => rw [parseEls, parseEls, skipWs_cons_ws h]

theorem parsePairs_ws (f : Nat) {c : Char} (h : isWsChar c = true) (cs : List Char) :
    parsePairs f (c :: cs) = parsePairs f cs := by
  cases f with
  | zero => rfl
  | succ f => rw [parsePairs, parsePairs, skipWs_cons_ws h]

/-! ## Round-trip: stage dispatch equations -/

theorem parseValCore_paren (f : Nat) (rest : List Char) :
    parseValCore (Nat.succ f) ('(' :: rest) = parseParen f rest := by
  rw [parseValCore, if_neg (by decide), if_pos rfl]

theorem parseValCore_bracket (f : Nat) (rest : List Char) :
    parseValCore (Nat.succ f) ('[' :: rest)
      = (parseEls f ']' rest).map (fun p => (Value.list p.1, p.2)) := by
  rw [parseValCore, if_neg (by decide), if_neg (by decide), if_pos rfl]

theorem parseValCore_brace (f : Nat) (rest : List Char) :
    parseValCore (Nat.succ f) (braceO :: rest)
      = (parsePairs f rest).map (fun p => (Value.dict p.1, p.2)) := by
  rw [parseValCore, if_neg (by decide), if_neg (by decide), if_neg (by decide), if_pos rfl]

theorem parseValCore_num (f : Nat) {c : Char}
    (h : isDigitChar c = true ∨ c = '-') (rest : List Char) :
    parseValCore (Nat.succ f) (c :: rest) = parseNum (c :: rest) := by
  have hq : ¬((c = squote || c = dquote) = true) := by
    simp only [Bool.or_eq_true, decide_eq_true_eq]
    rintro (rfl | rfl) <;> rcases h with h | h
    · exact absurd h (by decide)
    · exact absurd h (by decide)
    · exact absurd h (by decide)
    · exact absurd h (by decide)
  have hp : ¬(c = '(') := by
    rintro rfl
    rcases h with h | h
    · exact absurd h (by decide)
    · exact absurd h (by decide)
  have hb : ¬(c = '[') := by
    rintro rfl
    rcases h with h | h
    · exact absurd h (by decide)
    · exact absurd h (by decide)
  have hbo : ¬(c = braceO) := by
    rintro rfl
    rcases h with h | h
    · exact absurd h (by decide)
    · exact absurd h (by decide)
  have hn : (isDigitChar c || c = '-' || c = '+') = true := by
    rcases h with h | h
    · simp [h]
    · simp [h]
  rw [parseValCore, if_neg hq, if_neg hp, if_neg hb, if_neg hbo, if_pos hn]

theorem parseParenCore_close (f : Nat) (rest : List Char) :
    parseParenCore (Nat.succ f) (')' :: rest) = some (Value.tup [], rest) := by
  rw [parseParenCore, if_pos rfl]

theorem parseParenCore_cons (f : Nat) {c : Char} (h : ¬(c = ')')) (rest : List Char) :
    parseParenCore (Nat.succ f) (c :: rest)
      = parseParenAfter f (parseVal f (c :: rest)) := by
  rw [parseParenCore, if_neg h]

theorem parseParenClose_comma (f : Nat) (v : Value) (rest : List Char) :
    parseParenClose (Nat.succ f) v (',' :: rest)
      = (parseEls f ')' rest).map (fun p => (Value.tup (v :: p.1), p.2)) := by
  rw [parseParenClose, if_neg (by decide), if_pos rfl]

theorem parseElsCore_close (f : Nat) (close : Char) (rest : List Char) :
    parseElsCore (Nat.succ f) close (close :: rest) = some ([], rest) := by
  rw [parseElsCore, if_pos rfl]

theorem parseElsCore_cons (f : Nat) (close : Char) {c : Char} (h : ¬(c = close))
    (rest : List Char) :
    parseElsCore (Nat.succ f) close (c :: rest)
      = parseElsAfter f close (parseVal f (c :: rest)) := by
  rw [parseElsCore, if_neg h]

theorem parseElsSep_comma (f : Nat) (close : Char) (v : Value) (rest : List Char) :
    parseElsSep (Nat.succ f) close v (',' :: rest)
      = (parseEls f close rest).map (fun p => (v :: p.1, p.2)) := by
  rw [parseElsSep, if_pos rfl]

theorem parseElsSep_close (f : Nat) {close : Char} (h : ¬(close = ',')) (v : Value)
    (rest : List Char) :
    parseElsSep (Nat.succ f) close v (close :: rest) = some ([v], rest) := by
  rw [parseElsSep, if_neg h, if_pos rfl]

theorem parsePairsCore_cons (f : Nat) {c : Char} (h : ¬(c = braceC)) (rest : List Char) :
    parsePairsCore (Nat.succ f) (c :: rest)
      = parsePairsKey f (parseQuoted (c :: rest)) := by
  rw [parsePairsCore, if_neg h]

theorem parsePairsColon_colon (f : Nat) (k : String) (rest : List Char) :
    parsePairsColon (Nat.succ f) k (':' :: rest)
      = parsePairsVal f k (parseVal f rest) := by
  rw [parsePairsColon, if_pos rfl]

theorem parsePairsSep_comma (f : Nat) (k : String) (v : Value) (rest : List Char) :
    parsePairsSep (Nat.succ f) k v (',' :: rest)
      = (parsePairs f rest).map (fun p => ((k, v) :: p.1, p.2)) := by
  rw [parsePairsSep, if_pos rfl]

theorem parsePairsSep_brace (f : Nat) (k : String) (v : Value) (rest : List Char) :
    parsePairsSep (Nat.succ f) k v (braceC :: rest) = some ([(k, v)], rest) := by
  rw [parsePairsSep, if_neg (by decide), if_pos rfl]

/-! ## Round-trip: the main parse-print inversion -/

theorem parseVal_quoted (f : Nat) (s : String) (rest : List Char) :
    parseVal (Nat.succ (Nat.succ f)) (pyQuote s ++ rest) = some (.str s, rest) := by
  have hq := parseQuoted_pyQuote s rest
  obtain ⟨l, h | h⟩ := pyQuote_head s
  · rw [h] at hq ⊢
    rw [List.cons_append] at hq ⊢
    rw [parseVal, skipWs_cons_not (by decide), parseValCore, if_pos (by decide), hq]
    rfl
  · rw [h] at hq ⊢
    rw [List.cons_append] at hq ⊢
    rw [parseVal, skipWs_cons_not (by decide), parseValCore, if_pos (by decide), hq]
    rfl

theorem parseVal_num (f : Nat) (n : Int) (rest : List Char)
    (hrest : restDigitFree rest = true) :
    parseVal (Nat.succ (Nat.succ f)) (intChars n ++ rest)
      = some (.intLit n, rest) := by
  have hnum := parseNum_intChars n rest hrest
  by_cases hneg : n < 0
  · rw [intChars, if_pos hneg] at hnum ⊢
    rw [List.cons_append] at hnum ⊢
    rw [parseVal, skipWs_cons_not (by decide), parseValCore_num f (Or.inr rfl), hnum]
  · rw [intChars, if_neg hneg] at hnum ⊢
    obtain ⟨hmem, hne, -⟩ := natChars_spec n.natAbs
    cases hnc : natChars n.natAbs with
    | nil => exact absurd hnc hne
    | cons c l =>
      obtain ⟨d, hd, rfl⟩ := hmem c (by rw [hnc]; simp)
      obtain ⟨hdig, -, -, -, -, -, -, hws, -⟩ := digitChar_facts d hd
      rw [hnc] at hnum
      rw [List.cons_append] at hnum ⊢
      rw [parseVal, skipWs_cons_not hws, parseValCore_num f (Or.inl hdig), hnum]

/-- Printing then parsing is the identity: with enough fuel the parser maps
the printed form of any value (element list, dictionary-item list) back to
it, leaving any remaining input untouched. -/
theorem parse_print_inversion (f : Nat) :
    (∀ v rest, restDigitFree rest = true → fuelV v ≤ f →
      parseVal f (pyReprChars v ++ rest) = some (v, rest)) ∧
    (∀ xs close rest, (close = ')' ∨ close = ']') → fuelEls xs ≤ f →
      parseEls f close (pyJoin xs ++ close :: rest) = some (xs, rest)) ∧
    (∀ ps rest, fuelPairs ps ≤ f →
      parsePairs f (pyPairsJoin ps ++ braceC :: rest) = some (ps, rest)) := by
  induction f using Nat.strong_induction_on with
  | _ f ih =>
  refine ⟨?_, ?_, ?_⟩
  · intro v rest hrest hf
    cases v with
    | str s =>
      have h2 : 2 ≤ f := le_trans (by rw [fuelV]) hf
      obtain ⟨g, rfl⟩ : ∃ g, f = g + 2 := ⟨f - 2, by omega⟩
      exact parseVal_quoted g s rest
    | intLit n =>
      have h2 : 2 ≤ f := le_trans (by rw [fuelV]) hf
      obtain ⟨g, rfl⟩ : ∃ g, f = g + 2 := ⟨f - 2, by omega⟩
      exact parseVal_num g n rest hrest
    | tup xs =>
      cases xs with
      | nil =>
        have h4 : 4 ≤ f := le_trans (by rw [fuelV]) hf
        obtain ⟨g, rfl⟩ : ∃ g, f = g + 4 := ⟨f - 4, by omega⟩
        rw [pyReprChars]
        rw [show (['(', ')'] : List Char) ++ rest = '(' :: ')' :: rest from rfl]
        rw [parseVal, skipWs_cons_not (by decide), parseValCore_paren,
          parseParen, skipWs_cons_not (by decide), parseParenCore_close]
      | cons v vs =>
        have hfv : 8 + fuelV v + fuelEls vs ≤ f := le_trans (by rw [fuelV]) hf
        have hv2 := fuelV_pos v
        have he2 := fuelEls_pos vs
        obtain ⟨g, rfl⟩ : ∃ g, f = g + 8 := ⟨f - 8, by omega⟩
        obtain ⟨c, l, hcl, hh⟩ := pyReprChars_head v
        obtain ⟨hws, hpr, hbr, hcm, hco, hbc⟩ := isReprHead_facts hh
        cases vs with
        | nil =>
          have hshape : pyReprChars (Value.tup [v]) ++ rest
              = '(' :: (pyReprChars v ++ (',' :: ')' :: rest)) := by
            rw [pyReprChars]
            simp
          rw [hshape]
          rw [parseVal, skipWs_cons_not (by decide), parseValCore_paren, parseParen,
            hcl, List.cons_append, skipWs_cons_not hws, parseParenCore_cons _ hpr,
            ← List.cons_append, ← hcl]
          rw [(ih (g + 4) (by omega)).1 v (',' :: ')' :: rest) (by rfl) (by omega)]
          rw [parseParenAfter, skipWs_cons_not (by decide), parseParenClose_comma]
          have hB := (ih (g + 2) (by omega)).2.1 [] ')' rest (Or.inl rfl)
            (by rw [fuelEls]; omega)
          rw [pyJoin, List.nil_append] at hB
          rw [hB]
          rfl
        | cons w vs' =>
          have hshape : pyReprChars (Value.tup (v :: w :: vs')) ++ rest
              = '(' :: (pyReprChars v
                  ++ (',' :: ' ' :: (pyJoin (w :: vs') ++ ')' :: rest))) := by
            rw [pyReprChars, pyJoin]
            simp
          rw [hshape]
          rw [parseVal, skipWs_cons_not (by decide), parseValCore_paren, parseParen,
            hcl, List.cons_append, skipWs_cons_not hws, parseParenCore_cons _ hpr,
            ← List.cons_append, ← hcl]
          rw [(ih (g + 4) (by omega)).1 v
            (',' :: ' ' :: (pyJoin (w :: vs') ++ ')' :: rest)) (by rfl) (by omega)]
          rw [parseParenAfter, skipWs_cons_not (by decide), parseParenClose_comma,
            parseEls_ws (g + 2) ')' (by decide)]
          rw [(ih (g + 2) (by omega)).2.1 (w :: vs') ')' rest (Or.inl rfl) (by omega)]
          rfl
    | list xs =>
      have hfl : 2 + fuelEls xs ≤ f := le_trans (by rw [fuelV]) hf
      have he2 := fuelEls_pos xs
      obtain ⟨g, rfl⟩ : ∃ g, f = g + 2 := ⟨f - 2, by omega⟩
      have hshape : pyReprChars (Value.list xs) ++ rest
          = '[' :: (pyJoin xs ++ ']' :: rest) := by
        rw [pyReprChars]
        simp
      rw [hshape]
      rw [parseVal, skipWs_cons_not (by decide), parseValCore_bracket]
      rw [(ih g (by omega)).2.1 xs ']' rest (Or.inr rfl) (by omega)]
      rfl
    | dict ps =>
      have hfp : 2 + fuelPairs ps ≤ f := le_trans (by rw [fuelV]) hf
      have hp2 := fuelPairs_pos ps
      obtain ⟨g, rfl⟩ : ∃ g, f = g + 2 := ⟨f - 2, by omega⟩
      have hshape : pyReprChars (Value.dict ps) ++ rest
          = braceO :: (pyPairsJoin ps ++ braceC :: rest) := by
        rw [pyReprChars]
        simp
      rw [hshape]
      rw [parseVal, skipWs_cons_not (by decide), parseValCore_brace]
      rw [(ih g (by omega)).2.2 ps rest (by omega)]
      rfl
  · intro xs close rest hclose hfe
    have hclws : isWsChar close = false := by
      rcases hclose with h | h <;> subst h <;> decide
    have hclcm : ¬(close = ',') := by
      rcases hclose with h | h <;> subst h <;> decide
    cases xs with
    | nil =>
      have h2 : 2 ≤ f := le_trans (by rw [fuelEls]) hfe
      obtain ⟨g, rfl⟩ : ∃ g, f = g + 2 := ⟨f - 2, by omega⟩
      rw [pyJoin, List.nil_append, parseEls, skipWs_cons_not hclws, parseElsCore_close]
    | cons v vs =>
      have hfv : 8 + fuelV v + fuelEls vs ≤ f := le_trans (by rw [fuelEls]) hfe
      have hv2 := fuelV_pos v
      have he2 := fuelEls_pos vs
      obtain ⟨g, rfl⟩ : ∃ g, f = g + 5 := ⟨f - 5, by omega⟩
      obtain ⟨c, l, hcl, hh⟩ := pyReprChars_head v
      obtain ⟨hws, hpr, hbr, hcm, hco, hbc⟩ := isReprHead_facts hh
      have hccl : ¬(c = close) := by
        rcases hclose with h | h <;> subst h
        · exact hpr
        · exact hbr
      cases vs with
      | nil =>
        rw [pyJoin]
        rw [parseEls, hcl, List.cons_append, skipWs_cons_not hws,
          parseElsCore_cons _ _ hccl, ← List.cons_append, ← hcl]
        rw [(ih (g + 3) (by omega)).1 v (close :: rest)
          (by rcases hclose with h | h <;> subst h <;> rfl) (by omega)]
        rw [parseElsAfter, skipWs_cons_not hclws, parseElsSep_close _ hclcm]
      | cons w vs' =>
        have hshape : pyJoin (v :: w :: vs') ++ close :: rest
            = pyReprChars v ++ (',' :: ' ' :: (pyJoin (w :: vs') ++ close :: rest)) := by
          rw [pyJoin]
          simp
        rw [hshape]
        rw [parseEls, hcl, List.cons_append, skipWs_cons_not hws,
          parseElsCore_cons _ _ hccl, ← List.cons_append, ← hcl]
        rw [(ih (g + 3) (by omega)).1 v
          (',' :: ' ' :: (pyJoin (w :: vs') ++ close :: rest)) (by rfl) (by omega)]
        rw [parseElsAfter, skipWs_cons_not (by decide), parseElsSep_comma,
          parseEls_ws (g + 1) close (by decide)]
        rw [(ih (g + 1) (by omega)).2.1 (w :: vs') close rest hclose (by omega)]
        rfl
  · intro ps rest hfp
    cases ps with
    | nil =>
      have h2 : 2 ≤ f := le_trans (by rw [fuelPairs]) hfp
      obtain ⟨g, rfl⟩ : ∃ g, f = g + 2 := ⟨f - 2, by omega⟩
      rw [pyPairsJoin, List.nil_append, parsePairs, skipWs_cons_not (by decide),
        parsePairsCore, if_pos rfl]
    | cons kv ps' =>
      obtain ⟨k, v⟩ := kv
      have hfv : 8 + fuelV v + fuelPairs ps' ≤ f := le_trans (by rw [fuelPairs]) hfp
      have hv2 := fuelV_pos v
      have hp2 := fuelPairs_pos ps'
      obtain ⟨g, rfl⟩ : ∃ g, f = g + 7 := ⟨f - 7, by omega⟩
      cases ps' with
      | nil =>
        have hshape : pyPairsJoin [(k, v)] ++ braceC :: rest
            = pyQuote k ++ (':' :: ' ' :: (pyReprChars v ++ braceC :: rest)) := by
          rw [pyPairsJoin]
          simp
        rw [hshape]
        obtain ⟨l, hql | hql⟩ := pyQuote_head k
        · rw [parsePairs, hql, List.cons_append, skipWs_cons_not (by decide),
            parsePairsCore_cons _ (by decide), ← List.cons_append, ← hql]
          rw [parseQuoted_pyQuote]
          rw [parsePairsKey, skipWs_cons_not (by decide), parsePairsColon_colon,
            parseVal_ws (g + 3) (by decide)]
          rw [(ih (g + 3) (by omega)).1 v (braceC :: rest) (by rfl) (by omega)]
          rw [parsePairsVal, skipWs_cons_not (by decide), parsePairsSep_brace]
        · rw [parsePairs, hql, List.cons_append, skipWs_cons_not (by decide),
            parsePairsCore_cons _ (by decide), ← List.cons_append, ← hql]
          rw [parseQuoted_pyQuote]
          rw [parsePairsKey, skipWs_cons_not (by decide), parsePairsColon_colon,
            parseVal_ws (g + 3) (by decide)]
          rw [(ih (g + 3) (by omega)).1 v (braceC :: rest) (by rfl) (by omega)]
          rw [parsePairsVal, skipWs_cons_not (by decide), parsePairsSep_brace]
      | cons p ps'' =>
        have hshape : pyPairsJoin ((k, v) :: p :: ps'') ++ braceC :: rest
            = pyQuote k ++ (':' :: ' ' :: (pyReprChars v
                ++ (',' :: ' ' :: (pyPairsJoin (p :: ps'') ++ braceC :: rest)))) := by
          rw [pyPairsJoin]
          simp
        rw [hshape]
        obtain ⟨l, hql | hql⟩ := pyQuote_head k
        · rw [parsePairs, hql, List.cons_append, skipWs_cons_not (by decide),
            parsePairsCore_cons _ (by decide), ← List.cons_append, ← hql]
          rw [parseQuoted_pyQuote]
          rw [parsePairsKey, skipWs_cons_not (by decide), parsePairsColon_colon,
            parseVal_ws (g + 3) (by decide)]
          rw [(ih (g + 3) (by omega)).1 v
            (',' :: ' ' :: (pyPairsJoin (p :: ps'') ++ braceC :: rest)) (by rfl) (by omega)]
          rw [parsePairsVal, skipWs_cons_not (by decide), parsePairsSep_comma,
            parsePairs_ws (g + 1) (by decide)]
          rw [(ih (g + 1) (by omega)).2.2 (p :: ps'') rest (by omega)]
          rfl
        · rw [parsePairs, hql, List.cons_append, skipWs_cons_not (by decide),
            parsePairsCore_cons _ (by decide), ← List.cons_append, ← hql]
          rw [parseQuoted_pyQuote]
          rw [parsePairsKey, skipWs_cons_not (by decide), parsePairsColon_colon,
            parseVal_ws (g + 3) (by decide)]
          rw [(ih (g + 3) (by omega)).1 v
            (',' :: ' ' :: (pyPairsJoin (p :: ps'') ++ braceC :: rest)) (by rfl) (by omega)]
          rw [parsePairsVal, skipWs_cons_not (by decide), parsePairsSep_comma,
            parsePairs_ws (g + 1) (by decide)]
          rw [(ih (g + 1) (by omega)).2.2 (p :: ps'') rest (by omega)]
          rfl

/-! ## Round-trip: fuel bounds against printed length -/

theorem one_le_intChars_length (n : Int) : 1 ≤ (intChars n).length := by
  rw [intChars]
  by_cases hneg : n < 0
  · rw [if_pos hneg]
    simp
  · rw [if_neg hneg]
    have hne := (natChars_spec n.natAbs).2.1
    cases hx : natChars n.natAbs with
    | nil => exact absurd hx hne
    | cons c l => simp

mutual

theorem fuelV_le_repr (v : Value) : fuelV v + 6 ≤ 8 * (pyReprChars v).length :=
  match v with
  | .intLit n => by
    have h1 := one_le_intChars_length n
    rw [fuelV, pyReprChars]
    omega
  | .str s => by
    have h2 : 2 ≤ (pyQuote s).length := by
      rw [pyQuote]
      by_cases h : (s.data.contains squote && !(s.data.contains dquote)) = true
      · rw [if_pos h]
        simp
      · rw [if_neg h]
        simp
    rw [fuelV, pyReprChars]
    omega
  | .tup [] => by
    rw [fuelV, pyReprChars]
    simp
  | .tup [v] => by
    have h1 := fuelV_le_repr v
    rw [fuelV, fuelEls, pyReprChars]
    simp only [List.length_cons, List.length_append]
    omega
  | .tup (v :: w :: vs) => by
    have h1 := fuelV_le_repr v
    have h2 := fuelEls_le_join (w :: vs)
    rw [fuelV, pyReprChars, pyJoin]
    simp only [List.length_cons, List.length_append]
    omega
  | .list xs => by
    have h1 := fuelEls_le_join xs
    rw [fuelV, pyReprChars]
    simp only [List.length_cons, List.length_append]
    omega
  | .dict ps => by
    have h1 := fuelPairs_le_join ps
    rw [fuelV, pyReprChars]
    simp only [List.length_cons, List.length_append]
    omega

theorem fuelEls_le_join (xs : List Value) : fuelEls xs ≤ 8 * (pyJoin xs).length + 4 :=
  match xs with
  | [] => by
    rw [fuelEls, pyJoin]
    simp
  | [v] => by
    have h1 := fuelV_le_repr v
    rw [fuelEls, fuelEls, pyJoin]
    omega
  | v :: w :: vs => by
    have h1 := fuelV_le_repr v
    have h2 := fuelEls_le_join (w :: vs)
    rw [fuelEls, pyJoin]
    simp only [List.length_cons, List.length_append]
    omega

theorem fuelPairs_le_join (ps : List (String × Value)) :
    fuelPairs ps ≤ 8 * (pyPairsJoin ps).length + 4 :=
  match ps with
  | [] => by
    rw [fuelPairs, pyPairsJoin]
    simp
  | [(k, v)] => by
    have h1 := fuelV_le_repr v
    rw [fuelPairs, fuelPairs, pyPairsJoin]
    simp only [List.length_cons, List.length_append]
    omega
  | (k, v) :: p :: ps => by
    have h1 := fuelV_le_repr v
    have h2 := fuelPairs_le_join (p :: ps)
    rw [fuelPairs, pyPairsJoin]
    simp only [List.length_cons, List.length_append]
    omega

end

/-- Parsing the printed form of a value recovers the value. -/
theorem parseLiteral_pyRepr (v : Value) : parseLiteral (pyRepr v) = some v := by
  have hb := fuelV_le_repr v
  have h := (parse_print_inversion (8 * (pyRepr v).length + 8)).1 v [] (by rfl)
    (by
      have hlen : (pyRepr v).length = (pyReprChars v).length := rfl
      omega)
  rw [List.append_nil] at h
  rw [parseLiteral, show (pyRepr v).data = pyReprChars v from rfl, h]
  simp [show skipWs [] = [] from rfl]

/-! ## The representable values (claim C1) -/

mutual

/-- Values whose nested strings are printable ASCII and whose dictionaries
have distinct keys: the fragment on which the embedding of Python
`repr`/`literal_eval` is faithful. -/
def goodVal : Value → Bool
  | .str s => s.data.all goodChar
  | .intLit _ => true
  | .tup xs => goodEls xs
  | .list xs => goodEls xs
  | .dict ps => goodPairs ps

/-- Elementwise goodness. -/
def goodEls : List Value → Bool
  | [] => true
  | v :: vs => goodVal v && goodEls vs

/-- Itemwise goodness of dictionary items, including key distinctness. -/
def goodPairs : List (String × Value) → Bool
  | [] => true
  | (k, v) :: ps =>
      k.data.all goodChar && !(ps.any (fun q => q.1 = k)) && goodVal v && goodPairs ps

end

/-- A stored text that is safely an opaque scalar: it holds no opening
parenthesis, bracket or brace and no comma anywhere, so no literal
evaluation of it can produce a tuple, list, dictionary or set — every such
display needs one of those characters (a bare tuple such as `1, 2` needs
the comma).  Banning the characters outright keeps the test sound even
against comments and line joining inside a stored text, and independent of
how much of `ast.literal_eval`'s grammar the parser model covers. -/
def rawScalar (t : String) : Bool :=
  !(t.data.contains '(') && !(t.data.contains '[') && !(t.data.contains braceO) &&
  !(t.data.contains ',')

theorem skipWs_mem : ∀ (l : List Char) (c : Char) (ls : List Char),
    skipWs l = c :: ls → c ∈ l := by
  intro l
  induction l with
  | nil => intro c ls h; exact absurd h (by simp [skipWs])
  | cons a l ih =>
    intro c ls h
    rw [skipWs] at h
    by_cases hws : isWsChar a = true
    · rw [if_pos hws] at h
      exact List.mem_cons_of_mem a (ih c ls h)
    · rw [if_neg hws] at h
      exact (List.cons.inj h).1 ▸ List.mem_cons_self a l

/-- A structured parse can only start at an opening bracket: every other
first significant character yields a string or integer atom, or fails. -/
theorem parseValCore_structured_head (f : Nat) (c : Char) (ls : List Char)
    (v : Value) (rest : List Char)
    (h : parseValCore (Nat.succ f) (c :: ls) = some (v, rest))
    (hs : structuredOf v = true) :
    c = '(' ∨ c = '[' ∨ c = braceO := by
  rw [parseValCore] at h
  by_cases hq : (c = squote || c = dquote) = true
  · rw [if_pos hq] at h
    obtain ⟨p, -, hp2⟩ := Option.map_eq_some'.mp h
    have hv : Value.str p.1 = v := congrArg Prod.fst hp2
    rw [← hv] at hs
    exact absurd hs (by rw [structuredOf]; simp)
  · rw [if_neg hq] at h
    by_cases hp : c = '('
    · exact Or.inl hp
    · rw [if_neg hp] at h
      by_cases hb : c = '['
      · exact Or.inr (Or.inl hb)
      · rw [if_neg hb] at h
        by_cases hbo : c = braceO
        · exact Or.inr (Or.inr hbo)
        · rw [if_neg hbo] at h
          by_cases hnum : (isDigitChar c || c = '-' || c = '+') = true
          · rw [if_pos hnum] at h
            have hint : ∃ m, Value.intLit m = v := by
              rw [parseNum] at h
              by_cases h1 : c = '-'
              · rw [if_pos h1] at h
                obtain ⟨p, -, hp2⟩ := Option.map_eq_some'.mp h
                exact ⟨_, congrArg Prod.fst hp2⟩
              · rw [if_neg h1] at h
                by_cases h2 : c = '+'
                · rw [if_pos h2] at h
                  obtain ⟨p, -, hp2⟩ := Option.map_eq_some'.mp h
                  exact ⟨_, congrArg Prod.fst hp2⟩
                · rw [if_neg h2] at h
                  obtain ⟨p, -, hp2⟩ := Option.map_eq_some'.mp h
                  exact ⟨_, congrArg Prod.fst hp2⟩
            obtain ⟨m, hv⟩ := hint
            rw [← hv] at hs
            exact absurd hs (by rw [structuredOf]; simp)
          · rw [if_neg hnum] at h
            exact absurd h (by simp)

/-- On a raw scalar the parser can only produce an unstructured value. -/
theorem rawScalar_sound (t : String) (h : rawScalar t = true) (v : Value)
    (hp : parseLiteral t = some v) : structuredOf v = false := by
  by_contra hst
  have hs : structuredOf v = true := by
    cases hx : structuredOf v
    · exact absurd hx hst
    · rfl
  have hhead : ∀ c l', skipWs t.data = c :: l' → ¬(c = '(' ∨ c = '[' ∨ c = braceO) := by
    intro c l' hc hor
    have hmem : c ∈ t.data := skipWs_mem t.data c l' hc
    rw [rawScalar] at h
    simp only [Bool.and_eq_true, Bool.not_eq_true'] at h
    obtain ⟨⟨⟨hp, hb⟩, hbo⟩, -⟩ := h
    rcases hor with rfl | rfl | rfl
    · rw [List.contains_eq_any_beq] at hp
      simp only [List.any_eq_false] at hp
      have hx := hp _ hmem
      simp at hx
    · rw [List.contains_eq_any_beq] at hb
      simp only [List.any_eq_false] at hb
      have hx := hb _ hmem
      simp at hx
    · rw [List.contains_eq_any_beq] at hbo
      simp only [List.any_eq_false] at hbo
      have hx := hbo _ hmem
      simp at hx
  rw [parseLiteral] at hp
  cases hpv : parseVal (8 * t.length + 8) t.data with
  | none => rw [hpv] at hp; exact absurd hp (by simp)
  | some pr =>
    obtain ⟨w, rest⟩ := pr
    rw [hpv] at hp
    have hp2 : (if skipWs rest = [] then some w else none) = some v := hp
    by_cases hsk : skipWs rest = []
    · rw [if_pos hsk] at hp2
      have hw : w = v := by simpa using hp2
      subst hw
      rw [show 8 * t.length + 8 = Nat.succ (8 * t.length + 7) from rfl, parseVal] at hpv
      cases hsw : skipWs t.data with
      | nil =>
        rw [hsw] at hpv
        rw [show 8 * t.length + 7 = Nat.succ (8 * t.length + 6) from rfl, parseValCore] at hpv
        exact absurd hpv (by simp)
      | cons c lsw =>
        rw [hsw] at hpv
        obtain ⟨g, hg⟩ : ∃ g, 8 * t.length + 7 = Nat.succ g := ⟨8 * t.length + 6, rfl⟩
        rw [hg] at hpv
        exact hhead c lsw hsw (parseValCore_structured_head g c lsw w rest hpv hs)
    · rw [if_neg hsk] at hp2
      exact absurd hp2 (by simp)

/-- The representable values of the claimed round-trip: scalars whose text
cannot read as a structured literal, tuples, dictionaries, and lists whose
members are all tuples (the TupleList kind), with printable-ASCII strings
and integer atoms throughout.  A bare integer is not a stored kind: the
program keeps the text of an unstructured option and never re-serialises
the evaluated atom. -/
def Representable (v : Value) : Bool :=
  goodVal v &&
    (match v with
     | .str s => rawScalar s
     | .intLit _ => false
     | .list xs => xs.all isTup
     | _ => true)

/-- Round-trip of the value codec on representable values. -/
theorem decode_encode (v : Value) (h : Representable v = true) :
    decode (encode v) = v := by
  cases v with
  | str s =>
    have hraw : rawScalar s = true := by
      rw [Representable] at h
      exact ((Bool.and_eq_true _ _).mp h).2
    rw [encode, decode]
    cases hp : parseLiteral s with
    | none => rfl
    | some w =>
      have hst := rawScalar_sound s hraw w hp
      simp [hst]
  | intLit n =>
    exact absurd h (by rw [Representable]; simp)
  | tup xs =>
    rw [show encode (Value.tup xs) = pyRepr (Value.tup xs) from rfl, decode,
      parseLiteral_pyRepr]
    simp [structuredOf]
  | list xs =>
    have hT : xs.all isTup = true := by
      rw [Representable] at h
      exact ((Bool.and_eq_true _ _).mp h).2
    rw [show encode (Value.list xs) = pyRepr (Value.list xs) from rfl, decode,
      parseLiteral_pyRepr]
    simp [structuredOf, hT]
  | dict ps =>
    rw [show encode (Value.dict ps) = pyRepr (Value.dict ps) from rfl, decode,
      parseLiteral_pyRepr]
    simp [structuredOf]

/-! ## `evaluate_value` (configuration.py lines 846-871, claim C3)

`ast.literal_eval` can terminate normally, raise a recoverable parse error
(`SyntaxError`, `ValueError`), or raise a resource-exhaustion error
(`TypeError`, `MemoryError`, `RecursionError`) with a message.  The outcome
of one evaluation is a value of `LitEvalOutcome`; `evaluate_value` is the
`try`/`except` dispatch around it. -/

/-- The possible outcomes of `ast.literal_eval(value)`. -/
inductive LitEvalOutcome where
  | ok (v : Value)
  | syntaxError
  | valueError
  | typeError (msg : String)
  | memoryError (msg : String)
  | recursionError (msg : String)

/-- Result of `evaluate_value`: either a returned value (`none` when the
evaluation failed recoverably, mirroring the initial
`evaluated_value = None`), or a process exit with a code and the printed
cause. -/
inductive EvalValueResult where
  | ret (v : Option Value)
  | exitProc (code : Nat) (printed : String)
deriving BEq

/-- The `try`/`except` dispatch of `evaluate_value`: recoverable parse
failures fall through to `None`; `TypeError`, `MemoryError` and
`RecursionError` print the cause and call `sys.exit(1)`. -/
def evaluate_value : LitEvalOutcome → EvalValueResult
  | .ok v => .ret (some v)
  | .syntaxError => .ret none
  | .valueError => .ret none
  | .typeError m => .exitProc 1 m
  | .memoryError m => .exitProc 1 m
  | .recursionError m => .exitProc 1 m

/-- ASCII letter. -/
def asciiLetter (c : Char) : Bool :=
  (65 ≤ c.toNat && c.toNat ≤ 90) || (97 ≤ c.toNat && c.toNat ≤ 122)

/-- Texts on which `ast.literal_eval` provably raises a recoverable parse
error (`SyntaxError` for a malformed expression, `ValueError` for a name):
only ASCII letters and whitespace, and not one of the keyword literals
`True`, `False`, `None`.  Such a text reads as bare names or keywords,
never as a literal. -/
def definitelyInvalidText (t : String) : Bool :=
  t.data.all (fun c => asciiLetter c || isWsChar c) &&
  !(pyStrip t = "True") && !(pyStrip t = "False") && !(pyStrip t = "None")

/-- The outcome of `ast.literal_eval` where the model can settle it: a
text the parser model accepts evaluates to its value, and a provably
invalid text raises a recoverable error (`valueError` stands for the
`SyntaxError`/`ValueError` class, which `evaluate_value` treats
identically).  On any other text the outcome is not modelled (`none`)
rather than asserted inexactly.  The resource-exhaustion outcomes need an
impure interpreter state and do not arise here. -/
def literalEvalOutcome (t : String) : Option LitEvalOutcome :=
  match parseLiteral t with
  | some v => some (.ok v)
  | none => if definitelyInvalidText t then some .valueError else none

theorem skipWs_letter : ∀ (l : List Char),
    (∀ c ∈ l, (asciiLetter c || isWsChar c) = true) →
    skipWs l = [] ∨ ∃ c ls, skipWs l = c :: ls ∧ asciiLetter c = true := by
  intro l
  induction l with
  | nil => exact fun _ => Or.inl rfl
  | cons a l ih =>
    intro hall
    have ha := hall a (by simp)
    by_cases hws : isWsChar a = true
    · rw [skipWs_cons_ws hws]
      exact ih (fun c hc => hall c (by simp [hc]))
    · have hl : asciiLetter a = true := by
        simp only [Bool.or_eq_true] at ha
        rcases ha with h | h
        · exact h
        · exact absurd h hws
      have hwsf : isWsChar a = false := by
        cases hx : isWsChar a
        · rfl
        · exact absurd hx hws
      rw [skipWs_cons_not hwsf]
      exact Or.inr ⟨a, l, rfl, hl⟩

/-- The parser rejects a text whose first significant character is a
letter. -/
theorem parseValCore_letter_none (f : Nat) (c : Char) (ls : List Char)
    (h : asciiLetter c = true) : parseValCore (Nat.succ f) (c :: ls) = none := by
  have htn : (65 ≤ c.toNat ∧ c.toNat ≤ 90) ∨ (97 ≤ c.toNat ∧ c.toNat ≤ 122) := by
    rw [asciiLetter] at h
    simp only [Bool.or_eq_true, Bool.and_eq_true, decide_eq_true_eq] at h
    exact h
  have hq : ¬((c = squote || c = dquote) = true) := by
    simp only [Bool.or_eq_true, decide_eq_true_eq]
    rintro (rfl | rfl)
    · rw [show squote.toNat = 39 from rfl] at htn
      omega
    · rw [show dquote.toNat = 34 from rfl] at htn
      omega
  have hp : ¬(c = '(') := by
    rintro rfl
    rw [show Char.toNat '(' = 40 from rfl] at htn
    omega
  have hb : ¬(c = '[') := by
    rintro rfl
    rw [show Char.toNat '[' = 91 from rfl] at htn
    omega
  have hbo : ¬(c = braceO) := by
    rintro rfl
    rw [show braceO.toNat = 123 from rfl] at htn
    omega
  have hnum : ¬((isDigitChar c || c = '-' || c = '+') = true) := by
    simp only [Bool.or_eq_true, decide_eq_true_eq]
    rintro ((hd | rfl) | rfl)
    · rw [isDigitChar] at hd
      simp only [Bool.and_eq_true, decide_eq_true_eq] at hd
      omega
    · rw [show Char.toNat '-' = 45 from rfl] at htn
      omega
    · rw [show Char.toNat '+' = 43 from rfl] at htn
      omega
  rw [parseValCore, if_neg hq, if_neg hp, if_neg hb, if_neg hbo, if_neg hnum]

/-- The parser fails on every provably invalid text, as `ast.literal_eval`
does (there with a recoverable error). -/
theorem parseLiteral_invalid (t : String) (h : definitelyInvalidText t = true) :
    parseLiteral t = none := by
  rw [parseLiteral]
  suffices hv : parseVal (8 * t.length + 8) t.data = none by rw [hv]
  have hall : ∀ c ∈ t.data, (asciiLetter c || isWsChar c) = true := by
    simp only [definitelyInvalidText, Bool.and_eq_true, List.all_eq_true] at h
    exact h.1.1.1
  rcases skipWs_letter t.data hall with hnil | ⟨c, ls, hc, hlet⟩
  · rw [show 8 * t.length + 8 = Nat.succ (8 * t.length + 7) from rfl, parseVal, hnil]
    rfl
  · rw [show 8 * t.length + 8 = Nat.succ (8 * t.length + 7) from rfl, parseVal, hc]
    rw [show 8 * t.length + 7 = Nat.succ (8 * t.length + 6) from rfl]
    exact parseValCore_letter_none _ c ls hlet

/-! ## `tidy_answer` (configuration.py lines 874-922, claims C2 and C7) -/

/-- The first character of `w` whose lower-cased form is not already one of
the accelerators in `used`, lower-cased — the inner scan of `tidy_answer`'s
initialism loop. -/
def firstFresh (used : List Char) (w : String) : Option Char :=
  (w.data.find? (fun c => !(used.contains c.toLower))).map Char.toLower

/-- The initialism loop of `tidy_answer`: one accelerator per word, each the
first character not already used (case-insensitively); a word with no fresh
character leaves the initialism unchanged, which the source detects
(`initialism == previous_initialism`) and answers with
`print('Undetermined mnemonics.'); sys.exit(1)` — modelled as `none`. -/
def buildInitialism (acc : List Char) : List String → Option (List Char)
  | [] => some acc
  | w :: ws =>
    match firstFresh acc w with
    | none => none
    | some m => buildInitialism (acc ++ [m]) ws

/-- The accelerators derived by `tidy_answer` for an action-word list
(`none` models the fatal `sys.exit(1)` on an accelerator collision). -/
def tidy_answer_initialism (answers : List String) : Option (List Char) :=
  buildInitialism [] answers

/-- The resolution loop of `tidy_answer`
(`for index, _ in enumerate(initialism): if initialism[index] == answer[0]:
answer = answers[index]`): the answer is re-read after each reassignment. -/
def resolveLoop : List (Char × String) → String → String
  | [], ans => ans
  | (c, w) :: rest, ans =>
    match ans.data with
    | [] => resolveLoop rest ans
    | a :: _ => if c = a then resolveLoop rest w else resolveLoop rest ans

/-- `tidy_answer`: derive the accelerators (fatal on collision, modelled as
`none`), read one line, strip and lower-case it; empty input is returned as
is, a first character outside the accelerator set yields the empty string,
and otherwise the input resolves through the resolution loop. -/
def tidy_answer (answers : List String) (line : String) : Option String :=
  match tidy_answer_initialism answers with
  | none => none
  | some ms =>
    let ans := pyLower (pyStrip line)
    some (match ans.data with
      | [] => ans
      | a :: _ =>
        if ms.contains a then resolveLoop (ms.zip answers) ans else "")

/-! ## `truncate_string` (configuration.py lines 197-214, claim C9) -/

/-- The inner truncation helper of `check_config_changes`: a string longer
than 256 characters is cut to its first 256 characters with `...` appended. -/
def truncate_string (s : String) : String :=
  if s.length > 256 then ⟨s.data.take 256⟩ ++ "..." else s

/-! ## The document model (`configparser` as used by the editor)

A `Document` is the ordered section -> option -> stored-text store; option
names go through `optionxform` (lower-casing) on every access, and option
keys within a section are unique (`configparser` sections are dicts), so
removal filters the key out. -/

/-- A configuration document: ordered sections, each an ordered list of
option-name/stored-text pairs (names stored in `optionxform`ed form). -/
abbrev Document := List (String × List (String × String))

/-- `configparser`'s default `optionxform`: lower-casing. -/
def optionxform (s : String) : String := pyLower s

/-- `config.has_section(section)`. -/
def has_section (c : Document) (s : String) : Bool := c.any (fun p => p.1 = s)

/-- `config.add_section(section)` (appends an empty section). -/
def add_section (c : Document) (s : String) : Document := c ++ [(s, [])]

/-- `config.options(section)` (empty for a missing section). -/
def doc_options (c : Document) (s : String) : List String :=
  match c.find? (fun p => p.1 = s) with
  | some sec => sec.2.map (fun q => q.1)
  | none => []

/-- `config[section].get(option)`. -/
def get_option (c : Document) (s o : String) : Option String :=
  match c.find? (fun p => p.1 = s) with
  | some sec => (sec.2.find? (fun q => q.1 = optionxform o)).map (fun q => q.2)
  | none => none

/-- `config.has_option(section, option)`. -/
def has_option (c : Document) (s o : String) : Bool := (get_option c s o).isSome

/-- `config[section][option] = value`: replace in place when the key exists,
append otherwise. -/
def assign_option (c : Document) (s o v : String) : Document :=
  c.map (fun p =>
    if p.1 = s then
      (p.1,
        if p.2.any (fun q => q.1 = optionxform o) then
          p.2.map (fun q => if q.1 = optionxform o then (q.1, v) else q)
        else p.2 ++ [(optionxform o, v)])
    else p)

/-- `config.remove_option(section, option)` (the key is unique in a
`configparser` section, so removal is a filter). -/
def remove_option (c : Document) (s o : String) : Document :=
  c.map (fun p =>
    if p.1 = s then (p.1, p.2.filter (fun q => !(q.1 = optionxform o))) else p)

/-- The in-memory document together with the persisted (on-disk) document;
`write_config` overwrites the persisted copy with the in-memory one. -/
structure FileState where
  config : Document
  persisted : Document
deriving BEq

/-- `write_config(config, config_path)`: persist the in-memory document. -/
def write_config (st : FileState) : FileState := ⟨st.config, st.config⟩

/-! ## `delete_option` (configuration.py lines 530-560, claim C8) -/

/-- `delete_option`: remove an existing option and persist at once
(returning `true`); report a missing option and return `false` with both the
in-memory and the persisted document untouched.  The optional backup step is
outside the model. -/
def delete_option (st : FileState) (s o : String) : FileState × Bool × List String :=
  if has_option st.config s o then
    (write_config ⟨remove_option st.config s o, st.persisted⟩, true, [])
  else
    (st, false, [o ++ " option does not exist."])

/-! ## `get_strict_boolean` (configuration.py lines 821-843) and the
option editor `modify_option` (lines 421-527, claim C5) -/

/-- `get_strict_boolean` at the value level: `some b` when the stored text
is strictly `true`/`false` case-insensitively (then `getboolean` yields that
boolean), `none` for the raised `ValueError`. -/
def strict_boolean (value : String) : Option Bool :=
  if pyLower value = "true" then some true
  else if pyLower value = "false" then some false
  else none

/-- Python `str()` of a boolean. -/
def pyBoolStr (b : Bool) : String := if b then "True" else "False"

/-- The action menu `modify_option` offers: `toggle` only for strict
booleans, `back` inserted before `quit` when allowed, `default` renamed to
`delete` when insertion/deletion is allowed. -/
def modify_option_answers (strict can_back can_insert_delete : Bool) : List String :=
  let a := if strict then ["modify", "toggle", "empty", "default", "quit"]
           else ["modify", "empty", "default", "quit"]
  let a := if can_back then a.dropLast ++ ["back", "quit"] else a
  if can_insert_delete then a.map (fun w => if w = "default" then "delete" else w) else a

/-- What `modify_option` returns: `done b` for the boolean returns, the
`back` navigation string, the `quit`-branch return (the resolved answer,
empty or `quit`), or the process exit raised inside `tidy_answer`. -/
inductive EditorReturn where
  | done (modified : Bool)
  | navBack
  | navQuit (answer : String)
  | fatal
deriving BEq

/-- `modify_option` on one console interaction.  `line` is the line typed at
the menu prompt; `nested` abstracts the interactive sub-editors the `modify`
action dispatches to (`modify_dictionary` / `modify_tuple` /
`modify_tuple_list` / `modify_value`) as a map from the current stored text
to the new stored text, with `none` for the emptied-tuple-list branch that
deletes the option instead.  The optional backup step is outside the
model. -/
def modify_option (st : FileState) (s o : String) (can_back can_insert_delete : Bool)
    (initial_value : Option String) (line : String) (nested : String → Option String) :
    FileState × EditorReturn :=
  let st :=
    match initial_value with
    | some iv =>
      if iv = "" then st
      else if has_option st.config s o then st
      else ⟨assign_option st.config s o iv, st.persisted⟩
    | none => st
  if has_option st.config s o then
    let value := (get_option st.config s o).getD ""
    let strict := (strict_boolean value).isSome
    let answers := modify_option_answers strict can_back can_insert_delete
    match tidy_answer answers line with
    | none => (st, .fatal)
    | some answer =>
      if answer = "modify" then
        match nested value with
        | some newv => (write_config ⟨assign_option st.config s o newv, st.persisted⟩, .done true)
        | none => ((delete_option st s o).1, .done false)
      else if answer = "toggle" then
        let b := (strict_boolean value).getD false
        (write_config ⟨assign_option st.config s o (pyBoolStr (!b)), st.persisted⟩, .done true)
      else if answer = "empty" then
        (write_config ⟨assign_option st.config s o "", st.persisted⟩, .done true)
      else if answer = "default" || answer = "delete" then
        ((delete_option st s o).1, .done false)
      else if answer = "back" then (st, .navBack)
      else if answer = "" || answer = "quit" then
        match initial_value with
        | some iv =>
          if value = iv then ((delete_option st s o).1, .done false)
          else (st, .navQuit answer)
        | none => (st, .navQuit answer)
      else (write_config st, .done true)
  else (st, .done false)

/-! ## `prompt_for_input` (configuration.py lines 1035-1072, claim C10) -/

/-- What one call of `prompt_for_input` does, as a function of the line the
user enters. -/
structure PromptOutcome where
  displayedCurrent : Bool
  result : String
deriving BEq

/-- `prompt_for_input`: the prompt shows the current value exactly when it
is non-empty; with a completer present (any allowed values, or a non-empty
current value) the stripped input falls back to the current value when
empty (`pt_prompt(...).strip() or value`), otherwise the stripped input is
returned as is. -/
def prompt_for_input (value : String) (all_values : List String) (entered : String) :
    PromptOutcome :=
  let displayed := !(value = "")
  let hasCompleter := !(all_values = []) || !(value = "")
  if hasCompleter then
    ⟨displayed, if pyStrip entered = "" then value else pyStrip entered⟩
  else
    ⟨displayed, pyStrip entered⟩

/-! ## The numeric branch of `modify_value` (configuration.py lines
949-971, claim C4) -/

/-- The smallest magnitude at which `float()` of a decimal text returns an
infinity: the midpoint between the largest finite double
(`2 ^ 1024 - 2 ^ 971`) and `2 ^ 1024`; round-half-even sends the midpoint
and everything above it to infinity. -/
def FLOAT_OVERFLOW : Nat := 2 ^ 1024 - 2 ^ 970

/-- Round a magnitude to the nearest double (53-bit mantissa,
ties-to-even); exact below `2 ^ 53`.  The resulting double is
integer-valued, so `int()` of it is exact and this also models
`int(float(...))` of a digit string. -/
def roundMantissa (n : Nat) : Nat :=
  if n < 2 ^ 53 then n
  else
    let e := n.log2 - 52
    let u := 2 ^ e
    let q := n / u
    let r := n % u
    if r * 2 < u || (r * 2 = u && q % 2 = 0) then q * u else (q + 1) * u

/-- Outcome of `int(float(value))` in the integer-limits branch of
`modify_value`. -/
inductive PyNumOutcome where
  | val (n : Int)
  | valueError
  | overflowError
  | outsideModel
deriving BEq

/-- ASCII characters that can occur in a text `float()` parses: digits,
signs, the decimal point, underscore digit separators, the exponent
marker, the letters of `inf`, `infinity` and `nan`, and the whitespace
`float()` strips (including vertical tab and form feed). -/
def floatAlphabet (c : Char) : Bool :=
  isDigitChar c || c = '+' || c = '-' || c = '.' || c = '_' || isWsChar c ||
  c.toNat = 11 || c.toNat = 12 ||
  c = 'e' || c = 'E' || c = 'i' || c = 'I' || c = 'n' || c = 'N' ||
  c = 'f' || c = 'F' || c = 'a' || c = 'A' || c = 't' || c = 'T' ||
  c = 'y' || c = 'Y'

/-- Split a leading sign off a numeric text. -/
def pySplitSign : List Char → Int × List Char
  | c :: rest =>
    if c = '-' then (-1, rest) else if c = '+' then (1, rest) else (1, c :: rest)
  | [] => (1, [])

/-- `int(float(value))` with the exceptions it can raise.  A plain decimal
integer text (optional sign, then digits) is modelled exactly, including
the `OverflowError` that `int()` raises once `float()` has returned an
infinity; an ASCII text that cannot be a `float()` literal — a character
outside the float alphabet, or two decimal points — raises the
`ValueError` that `modify_value` catches; other texts (fractions,
exponents, named specials, non-ASCII digits and spaces) are left outside
the model rather than modelled inexactly. -/
def pyIntFloat (s : String) : PyNumOutcome :=
  if !(pySplitSign s.data).2.isEmpty && (pySplitSign s.data).2.all isDigitChar then
    if FLOAT_OVERFLOW ≤ digitsVal (pySplitSign s.data).2 then .overflowError
    else .val ((pySplitSign s.data).1 * (roundMantissa (digitsVal (pySplitSign s.data).2) : Int))
  else if s.data.all (fun c => c.toNat < 128) &&
      (!(s.data.all floatAlphabet)
        || 2 ≤ (s.data.filter (fun c => c = '.')).length) then .valueError
  else .outsideModel

/-- Outcome of the numeric branch of `modify_value`: a returned value, a
`sys.exit`, a crash from an uncaught exception, or a text outside the
modelled fragment. -/
inductive NumericResult where
  | val (s : String)
  | exited (code : Nat)
  | crashed
  | outside
deriving BEq

/-- The numeric branch of `modify_value` when both limits are integers:
coerce the entered text with `int(float(value))` — a `ValueError` prints
the cause and exits with status 2, an `OverflowError` is not caught and
crashes the process — then clamp below by the minimum and above by the
maximum and render with `str`. -/
def modify_value_int_limits (entered : String) (mn mx : Int) : NumericResult :=
  match pyIntFloat entered with
  | .val n => .val (toString (min mx (max mn n)))
  | .valueError => .exited 2
  | .overflowError => .crashed
  | .outsideModel => .outside

theorem isDigitChar_ne_sign (c : Char) (h : isDigitChar c = true) :
    ¬(c = '-') ∧ ¬(c = '+') := by
  rw [isDigitChar] at h
  simp only [Bool.and_eq_true, decide_eq_true_eq] at h
  constructor <;> rintro rfl
  · rw [show Char.toNat '-' = 45 from rfl] at h
    omega
  · rw [show Char.toNat '+' = 43 from rfl] at h
    omega

/-- On an unsigned digit string the coercion rounds the value to a double
and overflows at the threshold. -/
theorem pyIntFloat_digits (cs : List Char) (hne : cs.isEmpty = false)
    (hall : cs.all isDigitChar = true) :
    pyIntFloat ⟨cs⟩ =
      (if FLOAT_OVERFLOW ≤ digitsVal cs then .overflowError
       else .val (roundMantissa (digitsVal cs))) := by
  have hdata : (⟨cs⟩ : String).data = cs := rfl
  have hsplit : pySplitSign cs = (1, cs) := by
    cases cs with
    | nil => exact absurd hne (by simp)
    | cons c l =>
      have hd : isDigitChar c = true := by
        rw [List.all_eq_true] at hall
        exact hall c (by simp)
      obtain ⟨hm, hp⟩ := isDigitChar_ne_sign c hd
      rw [pySplitSign, if_neg hm, if_neg hp]
  rw [pyIntFloat, hdata, hsplit]
  simp only [hne, hall, Bool.not_false, Bool.and_self, if_true]
  by_cases hth : FLOAT_OVERFLOW ≤ digitsVal cs
  · rw [if_pos hth, if_pos hth]
  · rw [if_neg hth, if_neg hth]
    simp

/-- Below `2 ^ 53` the double is exact. -/
theorem roundMantissa_small (n : Nat) (h : n < 2 ^ 53) : roundMantissa n = n := by
  rw [roundMantissa, if_pos h]

/-! ## `check_config_changes` (configuration.py lines 175-297, claim C6)

The diff reconciler, driven by a script of console input lines (one line
consumed per prompt; an exhausted script reads as empty input).  The
`back` stacks push at the head (Python appends and pops at the tail).
Printing and the optional backup step are outside the model; the two menus
used here (`default/quit`, `default/back/quit`) never collide, so the
`getD` in `diff_prompt` never masks the fatal path. -/

/-- The sections the reconciler walks: default-document sections that are
not excluded and have at least one option. -/
def diff_sections (dflt : Document) (excluded : List String) : List String :=
  (dflt.map (fun p => p.1)).filter
    (fun sct => !(excluded.contains sct) && !(doc_options dflt sct).isEmpty)

/-- The options walked within a section: the default document's options,
then user-only options unless the section ignores them. -/
def diff_option_list (dflt user : Document) (user_ignored : List String)
    (sect : String) : List String :=
  doc_options dflt sect ++
    (doc_options user sect).filter
      (fun o => !(user_ignored.contains sect) && !((doc_options dflt sect).contains o))

/-- Reconciler state: the user document with its persisted copy, and the
remaining scripted input lines. -/
structure DiffState where
  user : FileState
  script : List String
deriving BEq

/-- One `tidy_answer` prompt fed from the script. -/
def diff_prompt (answers : List String) (script : List String) : String × List String :=
  match script with
  | [] => ("", [])
  | l :: rest => ((tidy_answer answers l).getD "", rest)

/-- The inner option loop of `check_config_changes`.  Returns the state, the
last value of `answer`, the visited-option stack, and whether `quit` ended
the whole walk. -/
def diff_option_loop (dflt : Document) (sect : String) (opts : List String)
    (sIdxsEmpty : Bool) :
    Nat → Nat → List Nat → String → DiffState → DiffState × String × List Nat × Bool
  | 0, _, oIdxs, answer, st => (st, answer, oIdxs, false)
  | Nat.succ fuel, oi, oIdxs, answer, st =>
    if oi < opts.length then
      let opt := opts.getD oi ""
      let dv := get_option dflt sect opt
      let uv := get_option st.user.config sect opt
      if uv.isSome && !(dv == uv) then
        let answers := if sIdxsEmpty && oIdxs.isEmpty then ["default", "quit"]
                       else ["default", "back", "quit"]
        let pr := diff_prompt answers st.script
        let st := ⟨st.user, pr.2⟩
        if pr.1 = "default" then
          let st := ⟨write_config ⟨remove_option st.user.config sect opt,
            st.user.persisted⟩, st.script⟩
          diff_option_loop dflt sect opts sIdxsEmpty fuel (oi + 1) (oi :: oIdxs) pr.1 st
        else if pr.1 = "back" then
          match oIdxs with
          | popped :: rest => diff_option_loop dflt sect opts sIdxsEmpty fuel popped rest pr.1 st
          | [] => (st, pr.1, [], false)
        else if pr.1 = "quit" then (st, pr.1, oIdxs, true)
        else diff_option_loop dflt sect opts sIdxsEmpty fuel (oi + 1) (oi :: oIdxs) pr.1 st
      else diff_option_loop dflt sect opts sIdxsEmpty fuel (oi + 1) oIdxs answer st
    else (st, answer, oIdxs, false)

/-- The outer section loop of `check_config_changes`. -/
def diff_section_loop (dflt : Document) (sects : List String) (user_ignored : List String) :
    Nat → Nat → List Nat → DiffState → DiffState
  | 0, _, _, st => st
  | Nat.succ fuel, si, sIdxs, st =>
    if si < sects.length then
      let sect := sects.getD si ""
      let st : DiffState :=
        if has_section st.user.config sect then st
        else ⟨⟨add_section st.user.config sect, st.user.persisted⟩, st.script⟩
      let opts := diff_option_list dflt st.user.config user_ignored sect
      let r := diff_option_loop dflt sect opts sIdxs.isEmpty (Nat.succ fuel) 0 [] "" st
      if r.2.2.2 then r.1
      else if r.2.1 = "back" then
        match sIdxs with
        | popped :: rest => diff_section_loop dflt sects user_ignored fuel popped rest r.1
        | [] => r.1
      else
        let sIdxs := if r.2.2.1.isEmpty then sIdxs else si :: sIdxs
        diff_section_loop dflt sects user_ignored fuel (si + 1) sIdxs r.1
    else st

/-- `check_config_changes`, driven by a script of input lines.  The default
document is only ever read; it is returned alongside the final user state to
record that reconciliation leaves it untouched. -/
def check_config_changes (dflt : Document) (user : FileState)
    (excluded user_ignored : List String) (script : List String) (fuel : Nat) :
    Document × FileState :=
  let st := diff_section_loop dflt (diff_sections dflt excluded) user_ignored fuel 0 []
    ⟨user, script⟩
  (dflt, st.user)

/-! ## The all-`default` reconciliation (claim C6) -/

/-- One walked option under a `default` answer: a present, differing user
value is removed and the user document persisted at once; a missing or
agreeing value leaves the state untouched. -/
def purge_fs_step (dflt : Document) (sect : String) (fs : FileState)
    (opt : String) : FileState :=
  if (get_option fs.config sect opt).isSome &&
      !(get_option dflt sect opt == get_option fs.config sect opt) then
    write_config ⟨remove_option fs.config sect opt, fs.persisted⟩
  else fs

/-- All walked options of a section, reconciled to the default in order. -/
def purge_options (dflt : Document) (sect : String) (opts : List String)
    (fs : FileState) : FileState :=
  opts.foldl (purge_fs_step dflt sect) fs

/-- One section of the walk: ensure the section exists, then reconcile its
walked options. -/
def reconcile_default_step (dflt : Document) (user_ignored : List String)
    (fs : FileState) (sect : String) : FileState :=
  let fs2 : FileState :=
    if has_section fs.config sect then fs
    else ⟨add_section fs.config sect, fs.persisted⟩
  purge_options dflt sect (diff_option_list dflt fs2.config user_ignored sect) fs2

/-- The whole reconciliation walk under all-`default` answers. -/
def reconcile_default (dflt : Document) (user_ignored : List String)
    (sects : List String) (fs : FileState) : FileState :=
  sects.foldl (reconcile_default_step dflt user_ignored) fs

/-- Total option count of a document. -/
def totalOpts (c : Document) : Nat := (c.map (fun p => p.2.length)).sum

theorem doc_options_le (c : Document) (s : String) :
    (doc_options c s).length ≤ totalOpts c := by
  rw [doc_options]
  cases hf : c.find? (fun p => p.1 = s) with
  | none => simp
  | some sec =>
    have hmem : sec ∈ c := List.mem_of_find?_eq_some hf
    have h1 : sec.2.length ∈ c.map (fun p => p.2.length) :=
      List.mem_map_of_mem _ hmem
    have h2 : sec.2.length ≤ (c.map (fun p => p.2.length)).sum :=
      List.single_le_sum (fun x hx => Nat.zero_le x) _ h1
    simpa [totalOpts] using h2

theorem totalOpts_remove (c : Document) (s o : String) :
    totalOpts (remove_option c s o) ≤ totalOpts c := by
  rw [totalOpts, totalOpts, remove_option, List.map_map]
  apply List.sum_le_sum
  intro p hp
  by_cases hps : p.1 = s
  · simp only [Function.comp, if_pos hps]
    exact List.length_filter_le _ _
  · simp only [Function.comp, if_neg hps]
    exact le_refl _

theorem totalOpts_add_section (c : Document) (s : String) :
    totalOpts (add_section c s) = totalOpts c := by
  rw [totalOpts, totalOpts, add_section]
  simp

theorem diff_option_list_le (dflt u : Document) (ui : List String) (s : String) :
    (diff_option_list dflt u ui s).length ≤ totalOpts dflt + totalOpts u := by
  rw [diff_option_list, List.length_append]
  have h1 := doc_options_le dflt s
  have h2 : ((doc_options u s).filter
      (fun o => !(ui.contains s) && !((doc_options dflt s).contains o))).length
      ≤ (doc_options u s).length := List.length_filter_le _ _
  have h3 := doc_options_le u s
  omega

theorem totalOpts_purge_step (dflt : Document) (sect : String) (fs : FileState)
    (opt : String) :
    totalOpts (purge_fs_step dflt sect fs opt).config ≤ totalOpts fs.config := by
  rw [purge_fs_step]
  by_cases h : ((get_option fs.config sect opt).isSome &&
      !(get_option dflt sect opt == get_option fs.config sect opt)) = true
  · rw [if_pos h]
    exact totalOpts_remove _ _ _
  · rw [if_neg h]

theorem totalOpts_purge (dflt : Document) (sect : String) :
    ∀ (opts : List String) (fs : FileState),
      totalOpts (purge_options dflt sect opts fs).config ≤ totalOpts fs.config := by
  intro opts
  induction opts with
  | nil => intro fs; exact le_refl _
  | cons o os ih =>
    intro fs
    rw [purge_options, List.foldl_cons]
    exact le_trans (ih (purge_fs_step dflt sect fs o)) (totalOpts_purge_step _ _ _ _)

/-- The two menus the option walk offers both resolve a `d` line to
`default`. -/
theorem diff_menus_default (sIdxsEmpty : Bool) (oIdxs : List Nat) :
    (tidy_answer (if sIdxsEmpty && oIdxs.isEmpty then ["default", "quit"]
      else ["default", "back", "quit"]) "d").getD "" = "default" := by
  cases h : (sIdxsEmpty && oIdxs.isEmpty)
  · rw [if_neg (by decide)]
    rfl
  · rw [if_pos rfl]
    rfl

/-- The option walk under a script of `default` answers: every presented
differing option is removed and persisted in turn, no `quit` is raised,
and the walk returns with a still-all-`default` script. -/
theorem diff_option_loop_defaults (dflt : Document) (sect : String)
    (opts : List String) (sIdxsEmpty : Bool) :
    ∀ (fuel oi : Nat) (oIdxs : List Nat) (answer : String) (fs : FileState)
      (script : List String),
      (∀ l ∈ script, l = "d") →
      opts.length ≤ script.length + oi →
      opts.length < fuel + oi →
      ∃ script2 answer2 oIdxs2,
        diff_option_loop dflt sect opts sIdxsEmpty fuel oi oIdxs answer ⟨fs, script⟩
          = (⟨purge_options dflt sect (opts.drop oi) fs, script2⟩, answer2, oIdxs2, false) ∧
        (∀ l ∈ script2, l = "d") ∧
        (answer2 = "default" ∨ answer2 = answer) ∧
        script.length ≤ script2.length + (opts.length - oi) := by
  intro fuel
  induction fuel with
  | zero =>
    intro oi oIdxs answer fs script hscript hlen hfuel
    have hge : opts.length ≤ oi := by omega
    rw [List.drop_eq_nil_of_le hge]
    exact ⟨script, answer, oIdxs, rfl, hscript, Or.inr rfl, by omega⟩
  | succ fuel ih =>
    intro oi oIdxs answer fs script hscript hlen hfuel
    by_cases hoi : oi < opts.length
    · have hopt : opts.getD oi "" = opts[oi] := by
        rw [List.getD_eq_getElem?_getD, List.getElem?_eq_getElem hoi, Option.getD_some]
      have hdrop : opts.drop oi = opts[oi] :: opts.drop (oi + 1) :=
        (List.getElem_cons_drop opts oi hoi).symm
      rw [diff_option_loop, if_pos hoi]
      simp only [hopt]
      by_cases hdiff : ((get_option fs.config sect opts[oi]).isSome &&
          !(get_option dflt sect opts[oi] == get_option fs.config sect opts[oi])) = true
      · cases script with
        | nil =>
          simp at hlen
          omega
        | cons l rest =>
          have hl : l = "d" := hscript l (by simp)
          subst hl
          have hall : ∀ x ∈ rest, x = "d" := fun x hx => hscript x (by simp [hx])
          rw [if_pos hdiff]
          simp only [diff_prompt, diff_menus_default]
          rw [if_pos trivial]
          obtain ⟨script2, answer2, oIdxs2, heq, h2, h3, h4⟩ :=
            ih (oi + 1) (oi :: oIdxs) "default"
              (write_config ⟨remove_option fs.config sect opts[oi], fs.persisted⟩)
              rest hall (by simp at hlen ⊢; omega) (by omega)
          refine ⟨script2, answer2, oIdxs2, ?_, h2, ?_, ?_⟩
          · rw [heq, hdrop]
            rw [show purge_options dflt sect (opts[oi] :: opts.drop (oi + 1)) fs
                = purge_options dflt sect (opts.drop (oi + 1))
                    (purge_fs_step dflt sect fs opts[oi]) from rfl]
            rw [show purge_fs_step dflt sect fs opts[oi]
                = write_config ⟨remove_option fs.config sect opts[oi], fs.persisted⟩ from by
              rw [purge_fs_step, if_pos hdiff]]
          · rcases h3 with h | h
            · exact Or.inl h
            · exact Or.inl h
          · simp at h4 ⊢
            omega
      · rw [if_neg hdiff]
        obtain ⟨script2, answer2, oIdxs2, heq, h2, h3, h4⟩ :=
          ih (oi + 1) oIdxs answer fs script hscript (by omega) (by omega)
        refine ⟨script2, answer2, oIdxs2, ?_, h2, h3, by omega⟩
        rw [heq, hdrop]
        rw [show purge_options dflt sect (opts[oi] :: opts.drop (oi + 1)) fs
            = purge_options dflt sect (opts.drop (oi + 1))
                (purge_fs_step dflt sect fs opts[oi]) from rfl]
        rw [show purge_fs_step dflt sect fs opts[oi] = fs from by
          rw [purge_fs_step, if_neg hdiff]]
    · rw [diff_option_loop, if_neg hoi]
      rw [List.drop_eq_nil_of_le (by omega)]
      exact ⟨script, answer, oIdxs, rfl, hscript, Or.inr rfl, by omega⟩

/-- The section walk under all-`default` answers computes the fold of the
per-section reconciliation. -/
theorem diff_section_loop_defaults (dflt : Document) (sects : List String)
    (user_ignored : List String) :
    ∀ (fuel si : Nat) (sIdxs : List Nat) (fs : FileState) (script : List String),
      (∀ l ∈ script, l = "d") →
      (sects.length - si) * (totalOpts dflt + totalOpts fs.config + 1) ≤ fuel →
      (sects.length - si) * (totalOpts dflt + totalOpts fs.config + 1) ≤ script.length →
      ∃ script2,
        diff_section_loop dflt sects user_ignored fuel si sIdxs ⟨fs, script⟩
          = ⟨reconcile_default dflt user_ignored (sects.drop si) fs, script2⟩ := by
  intro fuel
  induction fuel with
  | zero =>
    intro si sIdxs fs script hscript hfuel hscr
    have hz : sects.length - si = 0 := by
      have h0 : (sects.length - si) * (totalOpts dflt + totalOpts fs.config + 1) = 0 :=
        Nat.le_zero.mp hfuel
      rcases Nat.mul_eq_zero.mp h0 with h | h
      · exact h
      · exact absurd h (by omega)
    rw [List.drop_eq_nil_of_le (by omega)]
    exact ⟨script, rfl⟩
  | succ fuel ih =>
    intro si sIdxs fs script hscript hfuel hscr
    by_cases hsi : si < sects.length
    · have hsect : sects.getD si "" = sects[si] := by
        rw [List.getD_eq_getElem?_getD, List.getElem?_eq_getElem hsi, Option.getD_some]
      have hdrop : sects.drop si = sects[si] :: sects.drop (si + 1) :=
        (List.getElem_cons_drop sects si hsi).symm
      have hN : sects.length - si = (sects.length - (si + 1)) + 1 := by omega
      set B := totalOpts dflt + totalOpts fs.config with hB
      have hexp : (sects.length - si) * (B + 1)
          = (sects.length - (si + 1)) * (B + 1) + (B + 1) := by
        rw [hN, Nat.succ_mul]
      rw [diff_section_loop, if_pos hsi]
      simp only [hsect]
      set fs2 : FileState :=
        if has_section fs.config sects[si] then fs
        else ⟨add_section fs.config sects[si], fs.persisted⟩ with hfs2
      have hfs2tot : totalOpts fs2.config = totalOpts fs.config := by
        rw [hfs2]
        by_cases hh : has_section fs.config sects[si] = true
        · rw [if_pos hh]
        · rw [if_neg hh]
          exact totalOpts_add_section _ _
      set opts := diff_option_list dflt fs2.config user_ignored sects[si] with hopts
      have hoptsle : opts.length ≤ B := by
        rw [hopts, hB]
        have := diff_option_list_le dflt fs2.config user_ignored sects[si]
        omega
      obtain ⟨script2, answer2, oIdxs2, heq, h2, h3, h4⟩ :=
        diff_option_loop_defaults dflt sects[si] opts (sIdxs.isEmpty)
          (Nat.succ fuel) 0 [] "" fs2 script hscript
          (by omega) (by omega)
      have hst2 : (⟨fs2, script⟩ : DiffState)
          = (if has_section fs.config sects[si] then (⟨fs, script⟩ : DiffState)
             else ⟨⟨add_section fs.config sects[si], fs.persisted⟩, script⟩) := by
        rw [hfs2]
        by_cases hh : has_section fs.config sects[si] = true
        · rw [if_pos hh, if_pos hh]
        · rw [if_neg hh, if_neg hh]
      rw [← hst2, heq]
      simp only [List.drop_zero] at heq ⊢
      have hans : ¬(answer2 = "back") := by
        rcases h3 with h | h <;> rw [h] <;> decide
      simp only [if_neg hans, Bool.false_eq_true, if_false]
      set fs3 := purge_options dflt sects[si] opts fs2 with hfs3
      have hfs3tot : totalOpts fs3.config ≤ totalOpts fs.config := by
        rw [hfs3]
        have := totalOpts_purge dflt sects[si] opts fs2
        omega
      have hmul : (sects.length - (si + 1)) * (totalOpts dflt + totalOpts fs3.config + 1)
          ≤ (sects.length - (si + 1)) * (B + 1) :=
        Nat.mul_le_mul_left _ (by rw [hB]; omega)
      obtain ⟨script3, heq3⟩ := ih (si + 1)
        (if oIdxs2.isEmpty = true then sIdxs else si :: sIdxs) fs3 script2 h2
        (by omega)
        (by omega)
      refine ⟨script3, ?_⟩
      rw [heq3, hdrop]
      rw [show reconcile_default dflt user_ignored (sects[si] :: sects.drop (si + 1)) fs
          = reconcile_default dflt user_ignored (sects.drop (si + 1))
              (reconcile_default_step dflt user_ignored fs sects[si]) from rfl]
      rw [show reconcile_default_step dflt user_ignored fs sects[si] = fs3 from by
        rw [reconcile_default_step, hfs3, hopts, hfs2]]
    · rw [diff_section_loop, if_neg hsi]
      rw [List.drop_eq_nil_of_le (by omega)]
      exact ⟨script, rfl⟩

/-! ## Supporting lemmas for the document model -/

/-- Looking up a key in a list it was just filtered out of finds nothing. -/
theorem find?_filter_ne (l : List (String × String)) (k : String) :
    (l.filter (fun q => !(q.1 = k))).find? (fun q => q.1 = k) = none := by
  rw [List.find?_eq_none]
  intro x hx
  have := List.of_mem_filter hx
  simp at this
  simp [this]

/-- After `remove_option`, the option is gone. -/
theorem get_option_remove (c : Document) (s o : String) :
    get_option (remove_option c s o) s o = none := by
  induction c with
  | nil => rfl
  | cons p c ih =>
    obtain ⟨ps, popts⟩ := p
    by_cases h : ps = s
    · subst h
      simp only [remove_option, List.map_cons]
      rw [get_option, List.find?_cons_of_pos _ (by simp)]
      simp [find?_filter_ne]
    · simp only [remove_option, List.map_cons] at ih ⊢
      rw [get_option, List.find?_cons_of_neg _ (by simp [h])]
      rw [get_option] at ih
      exact ih

/-- After `remove_option`, `has_option` is false. -/
theorem has_option_remove (c : Document) (s o : String) :
    has_option (remove_option c s o) s o = false := by
  rw [has_option, get_option_remove]
  rfl

/-! ## Claim theorems -/

/-- C1 counterexample.  The claim's scalar kind covers every stored text,
but a scalar whose text is itself a structured literal does not survive the
round trip in the program: the stored text `(1, 2)` is evaluated by
`ast.literal_eval` to a tuple, which `modify_option` dispatches to the
structured editors, so decoding the encoded form of `Scalar "(1, 2)"`
yields the tuple and not the scalar. -/
theorem c1_counterexample :
    encode (Value.str "(1, 2)") = "(1, 2)" ∧
    decode "(1, 2)" = Value.tup [Value.intLit 1, Value.intLit 2] ∧
    ¬(decode (encode (Value.str "(1, 2)")) = Value.str "(1, 2)") := by
  refine ⟨rfl, rfl, ?_⟩
  intro hcontra
  rw [show decode (encode (Value.str "(1, 2)"))
      = Value.tup [Value.intLit 1, Value.intLit 2] from rfl] at hcontra
  exact Value.noConfusion hcontra

/-- C1 (amended).  For every representable Value — an ordered tuple, an
ordered dictionary, a list of tuples (strings and integer atoms
throughout), or a scalar whose stored text cannot read as a structured
literal (it contains no parenthesis, bracket, brace or comma) — decoding
the canonical encoded text of the value yields the value again:
`decode (encode v) = v`.  A scalar whose text is itself a structured
literal instead decodes to that structure. -/
theorem c1_value_codec_roundtrip (v : Value) (h : Representable v = true) :
    decode (encode v) = v :=
  decode_encode v h

/-- Witness for C1 at a concrete value of each structured kind nested
together with scalars and an integer atom, and at a raw scalar. -/
theorem c1_value_codec_roundtrip_witness :
    Representable (Value.dict [("key", Value.str "v"),
        ("acts", Value.list [Value.tup [Value.str "a", Value.intLit (-2)],
          Value.tup []])]) = true
    ∧ decode (encode (Value.dict [("key", Value.str "v"),
        ("acts", Value.list [Value.tup [Value.str "a", Value.intLit (-2)],
          Value.tup []])]))
      = Value.dict [("key", Value.str "v"),
        ("acts", Value.list [Value.tup [Value.str "a", Value.intLit (-2)],
          Value.tup []])]
    ∧ Representable (Value.str "30 seconds") = true
    ∧ decode (encode (Value.str "30 seconds")) = Value.str "30 seconds" :=
  ⟨rfl, c1_value_codec_roundtrip _ rfl, rfl, c1_value_codec_roundtrip _ rfl⟩

/-- C3.  Decoding never propagates an error to the caller.  On a text whose
literal evaluation provably fails with a recoverable parse error (the
`SyntaxError`/`ValueError` classes), `evaluate_value` returns `None` and
the stored text is kept verbatim as an opaque scalar; on a text the model
parses, the value comes back without error; each recoverable outcome class
returns `None`, while the resource-exhaustion classes (`TypeError`,
`MemoryError`, `RecursionError`) print the cause and exit the process with
status 1. -/
theorem c3_decode_error_policy :
    (∀ t : String, definitelyInvalidText t = true →
      parseLiteral t = none ∧
      literalEvalOutcome t = some .valueError ∧
      (literalEvalOutcome t).map evaluate_value = some (.ret none) ∧
      decode t = .str t) ∧
    (∀ t v, parseLiteral t = some v →
      literalEvalOutcome t = some (.ok v) ∧
      (literalEvalOutcome t).map evaluate_value = some (.ret (some v))) ∧
    evaluate_value .syntaxError = .ret none ∧
    evaluate_value .valueError = .ret none ∧
    (∀ m, evaluate_value (.typeError m) = .exitProc 1 m) ∧
    (∀ m, evaluate_value (.memoryError m) = .exitProc 1 m) ∧
    (∀ m, evaluate_value (.recursionError m) = .exitProc 1 m) ∧
    (1 : Nat) ≠ 0 := by
  refine ⟨?_, ?_, rfl, rfl, fun m => rfl, fun m => rfl, fun m => rfl, by omega⟩
  · intro t ht
    have hn := parseLiteral_invalid t ht
    have ho : literalEvalOutcome t = some .valueError := by
      rw [literalEvalOutcome, hn, if_pos ht]
    refine ⟨hn, ho, ?_, ?_⟩
    · rw [ho]
      rfl
    · rw [decode, hn]
  · intro t v hv
    have ho : literalEvalOutcome t = some (.ok v) := by
      rw [literalEvalOutcome, hv]
    refine ⟨ho, ?_⟩
    rw [ho]
    rfl

/-- Witness for C3: a provably invalid text is preserved verbatim, a parsed
structured text evaluates to its value, and a resource-exhaustion outcome
exits with status 1 and the printed cause. -/
theorem c3_decode_error_policy_witness :
    definitelyInvalidText "spam eggs" = true ∧
    parseLiteral "spam eggs" = none ∧
    (literalEvalOutcome "spam eggs").map evaluate_value = some (.ret none) ∧
    decode "spam eggs" = .str "spam eggs" ∧
    parseLiteral "(1, 2)" = some (Value.tup [Value.intLit 1, Value.intLit 2]) ∧
    (literalEvalOutcome "(1, 2)").map evaluate_value
      = some (.ret (some (Value.tup [Value.intLit 1, Value.intLit 2]))) ∧
    evaluate_value (.recursionError "maximum recursion depth exceeded")
      = .exitProc 1 "maximum recursion depth exceeded" :=
  ⟨rfl, (c3_decode_error_policy.1 "spam eggs" rfl).1,
    (c3_decode_error_policy.1 "spam eggs" rfl).2.2.1,
    (c3_decode_error_policy.1 "spam eggs" rfl).2.2.2,
    rfl,
    (c3_decode_error_policy.2.1 "(1, 2)" _ rfl).2,
    c3_decode_error_policy.2.2.2.2.2.2.1 "maximum recursion depth exceeded"⟩

theorem digitsVal_append_zeros :
    ∀ (k : Nat) (l : List Char),
      digitsVal (l ++ List.replicate k '0') = digitsVal l * 10 ^ k := by
  intro k
  induction k with
  | zero =>
    intro l
    simp [digitsVal]
  | succ k ih =>
    intro l
    rw [show List.replicate (k + 1) '0' = '0' :: List.replicate k '0' from rfl]
    rw [show l ++ '0' :: List.replicate k '0' = (l ++ ['0']) ++ List.replicate k '0' by simp]
    rw [ih (l ++ ['0'])]
    rw [show digitsVal (l ++ ['0']) = 10 * digitsVal l + (Char.toNat '0' - 48) from by
      rw [show digitsVal = List.foldl (fun a c => 10 * a + (c.toNat - 48)) 0 from rfl,
        List.foldl_append]
      rfl]
    rw [show Char.toNat '0' - 48 = 0 from rfl]
    ring

/-- C4 counterexample.  A numeric entry can crash the prompt: at the entry
`2` followed by 308 zeros (a plain decimal integer) with limits 0 and 10,
`float()` returns an infinity and the following `int()` raises an
`OverflowError` that `modify_value` does not catch, so the process dies
with a traceback — neither the clamped `"10"` the claim promises for a
numeric entry nor the distinct exit status it promises for a non-numeric
one. -/
theorem c4_counterexample :
    pyIntFloat ⟨'2' :: List.replicate 308 '0'⟩ = .overflowError ∧
    modify_value_int_limits ⟨'2' :: List.replicate 308 '0'⟩ 0 10 = .crashed ∧
    ¬(modify_value_int_limits ⟨'2' :: List.replicate 308 '0'⟩ 0 10 = .val "10") ∧
    ¬(modify_value_int_limits ⟨'2' :: List.replicate 308 '0'⟩ 0 10 = .exited 2) := by
  have hall : ('2' :: List.replicate 308 '0').all isDigitChar = true := by
    rw [List.all_eq_true]
    intro c hc
    rcases List.mem_cons.mp hc with rfl | hc
    · rfl
    · rw [List.eq_of_mem_replicate hc]
      rfl
  have hval : digitsVal ('2' :: List.replicate 308 '0') = 2 * 10 ^ 308 := by
    have h := digitsVal_append_zeros 308 ['2']
    rw [show (['2'] : List Char) ++ List.replicate 308 '0'
        = '2' :: List.replicate 308 '0' from rfl] at h
    rw [h, show digitsVal ['2'] = 2 from rfl]
  have hof : pyIntFloat ⟨'2' :: List.replicate 308 '0'⟩ = .overflowError := by
    rw [pyIntFloat_digits _ (by rfl) hall, hval, if_pos (by norm_num [FLOAT_OVERFLOW])]
  refine ⟨hof, ?_, ?_, ?_⟩
  · rw [modify_value_int_limits, hof]
  · rw [modify_value_int_limits, hof]
    intro hcontra
    exact NumericResult.noConfusion hcontra
  · rw [modify_value_int_limits, hof]
    intro hcontra
    exact NumericResult.noConfusion hcontra

/-- C4 (amended).  With both limits integers, a plain decimal integer
entry below the double-overflow threshold is coerced with
`int(float(...))` — exactly so below `2 ^ 53` — and clamped into the
limits (the minimum applied first, then the maximum), returning `str` of a
number inside `[mn, mx]`, unchanged when it already lies there; an entry
at or beyond the threshold makes `float()` return an infinity and the
following `int()` raise an uncaught `OverflowError`, crashing the process
instead of clamping; an entry that provably cannot be a `float()` literal
prints the `ValueError` and exits with status 2, a non-zero status
distinct from the other exits. -/
theorem c4_numeric_clamping (entered : String) (mn mx : Int) :
    (∀ n, pyIntFloat entered = .val n → mn ≤ mx →
      ∃ m, modify_value_int_limits entered mn mx = .val (toString m) ∧
        mn ≤ m ∧ m ≤ mx ∧ (mn ≤ n → n ≤ mx → m = n)) ∧
    (∀ cs : List Char, entered = ⟨cs⟩ → cs.isEmpty = false →
      cs.all isDigitChar = true → digitsVal cs < 2 ^ 53 →
      pyIntFloat entered = .val (digitsVal cs)) ∧
    (pyIntFloat entered = .valueError →
      modify_value_int_limits entered mn mx = .exited 2 ∧
      (2 : Nat) ≠ 0 ∧ (2 : Nat) ≠ 1) ∧
    (pyIntFloat entered = .overflowError →
      modify_value_int_limits entered mn mx = .crashed) := by
  refine ⟨?_, ?_, ?_, ?_⟩
  · intro n hn hle
    refine ⟨min mx (max mn n), ?_, by omega, by omega, by intro h1 h2; omega⟩
    rw [modify_value_int_limits, hn]
  · intro cs hcs hne hall hsmall
    subst hcs
    have hbig : (2 : Nat) ^ 53 < FLOAT_OVERFLOW := by norm_num [FLOAT_OVERFLOW]
    rw [pyIntFloat_digits cs hne hall, if_neg (by omega),
      roundMantissa_small _ hsmall]
  · intro hn
    rw [modify_value_int_limits, hn]
    exact ⟨rfl, by omega, by omega⟩
  · intro hn
    rw [modify_value_int_limits, hn]

set_option maxRecDepth 8192 in
/-- Witness for C4: entry `"50"` with limits 0 and 10 returns `"10"`,
entry `"-5"` returns `"0"`, the digits of `"50"` coerce exactly, and the
non-numeric entry `"1.2.3"` exits with status 2. -/
theorem c4_numeric_clamping_witness :
    modify_value_int_limits "50" 0 10 = .val "10" ∧
    modify_value_int_limits "-5" 0 10 = .val "0" ∧
    (∃ m, modify_value_int_limits "50" 0 10 = .val (toString m) ∧
      (0 : Int) ≤ m ∧ m ≤ 10 ∧ ((0 : Int) ≤ 50 → (50 : Int) ≤ 10 → m = 50)) ∧
    pyIntFloat "50" = .val 50 ∧
    modify_value_int_limits "1.2.3" 0 10 = .exited 2 :=
  ⟨rfl, rfl, (c4_numeric_clamping "50" 0 10).1 50 rfl (by omega),
    (c4_numeric_clamping "50" 0 10).2.1 ['5', '0'] rfl rfl rfl (by decide),
    ((c4_numeric_clamping "1.2.3" 0 10).2.2.1 rfl).1⟩

/-- C9 counterexample.  The value printed for a 257-character stored value
is 259 characters long (the first 256 characters plus `...`), so the printed
form is not itself bounded by 256 characters. -/
theorem c9_counterexample :
    (truncate_string ⟨List.replicate 257 'a'⟩).length = 259 ∧
    ¬((truncate_string ⟨List.replicate 257 'a'⟩).length ≤ 256) := by
  have hlen : (⟨List.replicate 257 'a'⟩ : String).length = 257 := by
    show (List.replicate 257 'a').length = 257
    rw [List.length_replicate]
  have h259 : (truncate_string ⟨List.replicate 257 'a'⟩).length = 259 := by
    rw [truncate_string, if_pos (by omega)]
    show ((List.replicate 257 'a').take 256 ++ "...".data).length = 259
    rw [List.length_append, List.length_take, List.length_replicate]
    decide
  exact ⟨h259, by omega⟩

/-- C9 (amended).  Each before/after value printed by the reconciler keeps
at most the first 256 characters of the stored value: a value of at most
256 characters is printed whole, and a longer one is printed as its first
256 characters with `...` appended, 259 characters in all. -/
theorem c9_truncation (s : String) :
    (s.length ≤ 256 → truncate_string s = s) ∧
    (256 < s.length →
      truncate_string s = ⟨s.data.take 256⟩ ++ "..." ∧
      (truncate_string s).length = 259) := by
  constructor
  · intro h
    rw [truncate_string, if_neg (by omega)]
  · intro h
    have he : truncate_string s = ⟨s.data.take 256⟩ ++ "..." := by
      rw [truncate_string, if_pos (by omega)]
    refine ⟨he, ?_⟩
    rw [he]
    have hd : ((⟨s.data.take 256⟩ ++ "..." : String)).length
        = (s.data.take 256 ++ "...".data).length := rfl
    rw [hd, List.length_append, List.length_take]
    have hs : s.length = s.data.length := rfl
    have h3 : ("...".data).length = 3 := rfl
    omega

/-- Witness for C9 (amended), at a short and a long concrete value. -/
theorem c9_truncation_witness :
    truncate_string "timeout" = "timeout" ∧
    truncate_string ⟨List.replicate 300 'a'⟩
      = ⟨(List.replicate 300 'a').take 256⟩ ++ "..." ∧
    (truncate_string ⟨List.replicate 300 'a'⟩).length = 259 := by
  have hlen : (⟨List.replicate 300 'a'⟩ : String).length = 300 := by
    show (List.replicate 300 'a').length = 300
    rw [List.length_replicate]
  exact ⟨(c9_truncation "timeout").1 (by decide),
    ((c9_truncation ⟨List.replicate 300 'a'⟩).2 (by omega)).1,
    ((c9_truncation ⟨List.replicate 300 'a'⟩).2 (by omega)).2⟩

/-- C10.  When a non-empty current value is shown, an empty or
whitespace-only entry returns the current value unchanged; the empty string
is returned only when no current value was displayed. -/
theorem c10_empty_input_keeps_value (value : String) (all_values : List String)
    (entered : String) :
    (value ≠ "" → pyStrip entered = "" →
      (prompt_for_input value all_values entered).result = value) ∧
    ((prompt_for_input value all_values entered).result = "" →
      (prompt_for_input value all_values entered).displayedCurrent = false) ∧
    ((prompt_for_input value all_values entered).displayedCurrent = true ↔ value ≠ "") := by
  rw [prompt_for_input]
  by_cases hv : value = ""
  · subst hv
    by_cases ha : all_values = []
    · simp [ha]
    · simp [ha]
  · by_cases he : pyStrip entered = ""
    · simp [hv, he]
    · simp [hv, he]

/-- Witness for C10: a whitespace-only entry with current value `"cur"`
returns `"cur"`. -/
theorem c10_empty_input_keeps_value_witness :
    (prompt_for_input "cur" [] "   ").result = "cur" ∧
    (prompt_for_input "cur" [] "   ").displayedCurrent = true :=
  ⟨(c10_empty_input_keeps_value "cur" [] "   ").1 (by decide) (by decide),
    (c10_empty_input_keeps_value "cur" [] "   ").2.2.mpr (by decide)⟩

/-- C8.  Deleting (or defaulting) an already-absent option is a no-op that
reports the option as missing and returns `False`, leaving both the
in-memory and persisted documents unchanged; consequently applying the
removal twice has the same document effect as applying it once. -/
theorem c8_delete_absent_noop (st : FileState) (s o : String) :
    (has_option st.config s o = false →
      delete_option st s o = (st, false, [o ++ " option does not exist."])) ∧
    (delete_option (delete_option st s o).1 s o).1 = (delete_option st s o).1 := by
  constructor
  · intro h
    rw [delete_option, if_neg (by simp [h])]
  · by_cases h : has_option st.config s o = true
    · have h1 : delete_option st s o
          = (write_config ⟨remove_option st.config s o, st.persisted⟩, true, []) := by
        rw [delete_option, if_pos h]
      rw [h1]
      show (delete_option (write_config ⟨remove_option st.config s o, st.persisted⟩) s o).1
        = write_config ⟨remove_option st.config s o, st.persisted⟩
      have h2 : has_option (write_config
          ⟨remove_option st.config s o, st.persisted⟩).config s o = false :=
        has_option_remove st.config s o
      rw [delete_option, if_neg (by simp [h2])]
    · have h0 : has_option st.config s o = false := by
        cases hx : has_option st.config s o
        · rfl
        · exact absurd hx h
      have h1 : delete_option st s o = (st, false, [o ++ " option does not exist."]) := by
        rw [delete_option, if_neg (by simp [h0])]
      rw [h1]
      show (delete_option st s o).1 = st
      rw [h1]

/-- Witness for C8 at a concrete document without the option. -/
theorem c8_delete_absent_noop_witness :
    has_option [("General", [("headless", "True")])] "General" "timeout" = false ∧
    delete_option ⟨[("General", [("headless", "True")])], [("General", [("headless", "True")])]⟩
        "General" "timeout"
      = (⟨[("General", [("headless", "True")])], [("General", [("headless", "True")])]⟩,
          false, ["timeout option does not exist."]) :=
  ⟨rfl, (c8_delete_absent_noop _ "General" "timeout").1 rfl⟩

/-- C5.  The scalar option editor offers `toggle` exactly when the stored
text is strictly boolean (`true`/`false` case-insensitively), and choosing
`toggle` replaces the stored text with `str` of the negated boolean and
immediately persists the document (the returned state has the persisted
copy equal to the updated in-memory document). -/
theorem c5_toggle (cfg persisted : Document) (s o v : String)
    (nested : String → Option String)
    (hget : get_option cfg s o = some v) :
    ("toggle" ∈ modify_option_answers ((strict_boolean v).isSome) false false ↔
      (strict_boolean v).isSome = true) ∧
    (∀ b, strict_boolean v = some b →
      modify_option ⟨cfg, persisted⟩ s o false false none "t" nested
        = (⟨assign_option cfg s o (pyBoolStr (!b)),
            assign_option cfg s o (pyBoolStr (!b))⟩, .done true)) := by
  constructor
  · cases hsb : (strict_boolean v).isSome
    · simp [modify_option_answers]
    · simp [modify_option_answers]
  · intro b hb
    have hhas : has_option cfg s o = true := by
      rw [has_option, hget]
      rfl
    rw [modify_option]
    simp only [hhas, if_pos rfl, hget, Option.getD_some, hb, Option.isSome_some]
    have hans : modify_option_answers true false false
        = ["modify", "toggle", "empty", "default", "quit"] := rfl
    rw [hans]
    have htid : tidy_answer ["modify", "toggle", "empty", "default", "quit"] "t"
        = some "toggle" := rfl
    rw [htid]
    simp [write_config]

/-- Witness for C5: `headless = False` toggles to `True` and the file is
rewritten with the new text; `toggle` is offered for `"False"` and not for
the non-boolean stored text `"5"`. -/
theorem c5_toggle_witness :
    get_option [("General", [("headless", "False")])] "General" "headless" = some "False" ∧
    modify_option ⟨[("General", [("headless", "False")])],
        [("General", [("headless", "False")])]⟩
        "General" "headless" false false none "t" (fun _ => none)
      = (⟨[("General", [("headless", "True")])], [("General", [("headless", "True")])]⟩,
          .done true) ∧
    "toggle" ∈ modify_option_answers ((strict_boolean "False").isSome) false false ∧
    ¬("toggle" ∈ modify_option_answers ((strict_boolean "5").isSome) false false) := by
  refine ⟨rfl, ?_, ?_, ?_⟩
  · have h := (c5_toggle [("General", [("headless", "False")])]
      [("General", [("headless", "False")])] "General" "headless" "False"
      (fun _ => none) rfl).2 false rfl
    rw [h]
    rfl
  · exact (c5_toggle [("General", [("headless", "False")])]
      [("General", [("headless", "False")])] "General" "headless" "False"
      (fun _ => none) rfl).1.mpr rfl
  · intro hmem
    have h := (c5_toggle [("General", [("x", "5")])] [("General", [("x", "5")])]
      "General" "x" "5" (fun _ => none) rfl).1.mp hmem
    exact absurd h (by decide)

/-- C6.  Reconciliation under `default` answers, over arbitrary default
and user documents: `check_config_changes` returns the default document
untouched (the reconciler only ever reads it) and the user state obtained
by folding the per-option default step over every walked section and every
walked option.  The step removes a present, differing option from the user
document and persists the user document at once (persisted copy equal to
the updated in-memory document), and leaves every other option untouched.
The fuel and script-length bounds are artifacts of the executable model;
any sufficiently large values satisfy them. -/
theorem c6_diff_default_reverts (dflt : Document) (user : FileState)
    (excluded user_ignored : List String) (k fuel : Nat)
    (hfuel : (diff_sections dflt excluded).length *
        (totalOpts dflt + totalOpts user.config + 1) ≤ fuel)
    (hk : (diff_sections dflt excluded).length *
        (totalOpts dflt + totalOpts user.config + 1) ≤ k) :
    check_config_changes dflt user excluded user_ignored (List.replicate k "d") fuel
      = (dflt, reconcile_default dflt user_ignored (diff_sections dflt excluded) user) ∧
    (∀ fs sect opt, (get_option fs.config sect opt).isSome = true →
      ¬(get_option dflt sect opt = get_option fs.config sect opt) →
      purge_fs_step dflt sect fs opt
        = ⟨remove_option fs.config sect opt, remove_option fs.config sect opt⟩) ∧
    (∀ fs sect opt,
      get_option dflt sect opt = get_option fs.config sect opt ∨
        (get_option fs.config sect opt).isSome = false →
      purge_fs_step dflt sect fs opt = fs) := by
  refine ⟨?_, ?_, ?_⟩
  · obtain ⟨script2, heq⟩ := diff_section_loop_defaults dflt
      (diff_sections dflt excluded) user_ignored fuel 0 [] user
      (List.replicate k "d")
      (fun l hl => List.eq_of_mem_replicate hl)
      (by simpa using hfuel)
      (by simpa using hk)
    simp only [List.drop_zero] at heq
    rw [check_config_changes]
    rw [heq]
  · intro fs sect opt h1 h2
    rw [purge_fs_step,
      if_pos (by rw [h1, beq_eq_false_iff_ne.mpr h2]; rfl)]
    rw [write_config]
  · intro fs sect opt h
    rcases h with heq | hns
    · rw [purge_fs_step, if_neg (by simp [beq_iff_eq.mpr heq])]
    · rw [purge_fs_step, if_neg (by simp [hns])]

/-- Witness for C6: two sections; `x` differs, `y` agrees, `z` differs and
`w` exists only in the user document.  All-`default` answers remove `x`,
`z` and `w`, keep `y`, persist the result at once and return the default
document unchanged. -/
theorem c6_diff_default_reverts_witness :
    check_config_changes
        [("A", [("x", "1"), ("y", "2")]), ("B", [("z", "3")])]
        ⟨[("A", [("x", "9"), ("y", "2")]), ("B", [("z", "8"), ("w", "7")])],
         [("A", [("x", "9"), ("y", "2")]), ("B", [("z", "8"), ("w", "7")])]⟩
        [] [] (List.replicate 16 "d") 16
      = ([("A", [("x", "1"), ("y", "2")]), ("B", [("z", "3")])],
         ⟨[("A", [("y", "2")]), ("B", [])], [("A", [("y", "2")]), ("B", [])]⟩) := by
  have h := (c6_diff_default_reverts
      [("A", [("x", "1"), ("y", "2")]), ("B", [("z", "3")])]
      ⟨[("A", [("x", "9"), ("y", "2")]), ("B", [("z", "8"), ("w", "7")])],
       [("A", [("x", "9"), ("y", "2")]), ("B", [("z", "8"), ("w", "7")])]⟩
      [] [] 16 16 (by decide) (by decide)).1
  rw [h]
  rfl

theorem buildInitialism_sound :
    ∀ (ws : List String) (acc ms : List Char),
      buildInitialism acc ws = some ms →
      ms.length = acc.length + ws.length ∧
      ms.take acc.length = acc ∧
      ∀ i, i < ws.length →
        ∃ w m, ws[i]? = some w ∧ ms[acc.length + i]? = some m ∧
          firstFresh (ms.take (acc.length + i)) w = some m := by
  intro ws
  induction ws with
  | nil =>
    intro acc ms h
    rw [buildInitialism] at h
    cases h
    refine ⟨by simp, by simp, ?_⟩
    intro i hi
    exact absurd hi (by simp)
  | cons w ws ih =>
    intro acc ms h
    rw [buildInitialism] at h
    cases hf : firstFresh acc w with
    | none =>
      rw [hf] at h
      exact absurd h (by simp)
    | some m =>
      rw [hf] at h
      obtain ⟨hlen, htake, hidx⟩ := ih (acc ++ [m]) ms h
      simp only [List.length_append, List.length_cons, List.length_nil, Nat.add_zero,
        Nat.zero_add] at hlen htake hidx
      have hlen' : ms.length = acc.length + (w :: ws).length := by
        simp
        omega
      have htake0 : ms.take acc.length = acc := by
        have h1 : (ms.take (acc.length + 1)).take acc.length = ms.take acc.length := by
          rw [List.take_take]
          congr 1
          omega
        rw [← h1, htake, List.take_left]
      refine ⟨hlen', htake0, ?_⟩
      intro i hi
      cases i with
      | zero =>
        refine ⟨w, m, by simp, ?_, ?_⟩
        · have hsplit : ms = (acc ++ [m]) ++ ms.drop (acc.length + 1) := by
            conv_lhs => rw [← List.take_append_drop (acc.length + 1) ms, htake]
          rw [Nat.add_zero, hsplit]
          simp only [List.append_assoc, List.cons_append, List.nil_append]
          rw [List.getElem?_append_right (by omega)]
          simp
        · rw [Nat.add_zero, htake0, hf]
      | succ i =>
        have hi' : i < ws.length := by
          simp at hi
          omega
        obtain ⟨w', m', hw, hm, hff⟩ := hidx i hi'
        have harith : acc.length + (i + 1) = acc.length + 1 + i := by omega
        refine ⟨w', m', by simpa using hw, ?_, ?_⟩
        · rw [harith]
          exact hm
        · rw [harith]
          exact hff

theorem buildInitialism_nodup :
    ∀ (ws : List String) (acc ms : List Char),
      acc.Nodup → buildInitialism acc ws = some ms → ms.Nodup := by
  intro ws
  induction ws with
  | nil =>
    intro acc ms hnd h
    rw [buildInitialism] at h
    cases h
    exact hnd
  | cons w ws ih =>
    intro acc ms hnd h
    rw [buildInitialism] at h
    cases hf : firstFresh acc w with
    | none =>
      rw [hf] at h
      exact absurd h (by simp)
    | some m =>
      rw [hf] at h
      have hm : m ∉ acc := by
        rw [firstFresh] at hf
        obtain ⟨c, hc, rfl⟩ : ∃ c, w.data.find? (fun c => !(acc.contains c.toLower)) = some c
            ∧ m = c.toLower := by
          cases hfind : w.data.find? (fun c => !(acc.contains c.toLower)) with
          | none => rw [hfind] at hf; exact absurd hf (by simp)
          | some c =>
            rw [hfind] at hf
            exact ⟨c, rfl, by simpa using hf.symm⟩
        have hp := List.find?_some hc
        simp at hp
        simpa [List.contains_eq_any_beq] using hp
      exact ih (acc ++ [m]) ms (by simp [List.nodup_append, hnd, hm]) h

theorem buildInitialism_none :
    ∀ (ws : List String) (acc : List Char),
      buildInitialism acc ws = none →
      ∃ i, i < ws.length ∧ ∃ ps w,
        buildInitialism acc (ws.take i) = some ps ∧
        ws[i]? = some w ∧ firstFresh ps w = none := by
  intro ws
  induction ws with
  | nil =>
    intro acc h
    rw [buildInitialism] at h
    exact absurd h (by simp)
  | cons w ws ih =>
    intro acc h
    rw [buildInitialism] at h
    cases hf : firstFresh acc w with
    | none =>
      exact ⟨0, by simp, acc, w, by rw [List.take_zero, buildInitialism], by simp, hf⟩
    | some m =>
      rw [hf] at h
      obtain ⟨i, hi, ps, w', h1, h2, h3⟩ := ih (acc ++ [m]) h
      refine ⟨i + 1, by simpa using Nat.succ_lt_succ hi, ps, w', ?_, by simpa using h2, h3⟩
      rw [List.take_succ_cons, buildInitialism, hf]
      exact h1

theorem resolveLoop_no_match :
    ∀ (pairs : List (Char × String)) (ans : String),
      (∀ p ∈ pairs, ∀ a, ans.data.head? = some a → ¬(p.1 = a)) →
      resolveLoop pairs ans = ans := by
  intro pairs
  induction pairs with
  | nil => intro ans _; rfl
  | cons p rest ih =>
    intro ans hno
    obtain ⟨c, w⟩ := p
    rw [resolveLoop]
    cases hd : ans.data with
    | nil => exact ih ans (fun q hq a ha => hno q (by simp [hq]) a ha)
    | cons a t =>
      have hc : ¬(c = a) := hno (c, w) (by simp) a (by rw [hd]; rfl)
      show (if c = a then resolveLoop rest w else resolveLoop rest ans) = ans
      rw [if_neg hc]
      exact ih ans (fun q hq a ha => hno q (by simp [hq]) a ha)

theorem resolveLoop_find :
    ∀ (pairs : List (Char × String)) (ans : String) (a : Char),
      ans.data.head? = some a →
      (∀ i j : Nat, i < j → ∀ p q : Char × String,
        pairs[i]? = some p → pairs[j]? = some q →
        ∀ b, p.2.data.head? = some b → ¬(q.1 = b)) →
      resolveLoop pairs ans =
        (match pairs.find? (fun p => p.1 = a) with
         | some p => p.2
         | none => ans) := by
  intro pairs
  induction pairs with
  | nil =>
    intro ans a hh hs
    rfl
  | cons p rest ih =>
    intro ans a hh hs
    obtain ⟨c, w⟩ := p
    obtain ⟨t, ht⟩ : ∃ t, ans.data = a :: t := by
      cases hd : ans.data with
      | nil => rw [hd] at hh; exact absurd hh (by simp)
      | cons x t =>
        rw [hd] at hh
        simp at hh
        subst hh
        exact ⟨t, rfl⟩
    rw [resolveLoop, ht]
    show (if c = a then resolveLoop rest w else resolveLoop rest ans) = _
    by_cases hc : c = a
    · rw [if_pos hc, List.find?_cons_of_pos _ (by simp [hc])]
      apply resolveLoop_no_match
      intro q hq b hb
      obtain ⟨j, hj⟩ := List.mem_iff_getElem?.mp hq
      exact hs 0 (j + 1) (by omega) (c, w) q (by simp) (by simpa using hj) b hb
    · rw [if_neg hc, List.find?_cons_of_neg _ (by simp [hc])]
      exact ih ans a hh
        (fun i j hij p q hp hq b hb =>
          hs (i + 1) (j + 1) (by omega) p q (by simpa using hp) (by simpa using hq) b hb)

theorem nodup_getElem?_ne (l : List Char) (hnd : l.Nodup) (i j : Nat) (hij : i ≠ j)
    (x y : Char) (hx : l[i]? = some x) (hy : l[j]? = some y) : ¬(y = x) := by
  intro he
  subst he
  have hi : i < l.length := by
    by_contra hcon
    rw [List.getElem?_eq_none (by omega)] at hx
    exact absurd hx (by simp)
  have hj : j < l.length := by
    by_contra hcon
    rw [List.getElem?_eq_none (by omega)] at hy
    exact absurd hy (by simp)
  rw [List.getElem?_eq_getElem hi] at hx
  rw [List.getElem?_eq_getElem hj] at hy
  have hinj := List.nodup_iff_injective_get.mp hnd
  have heq : (⟨i, hi⟩ : Fin l.length) = ⟨j, hj⟩ := by
    apply hinj
    rw [List.get_eq_getElem, List.get_eq_getElem, Option.some.inj hx, Option.some.inj hy]
  exact hij (by simpa using congrArg Fin.val heq)


theorem zip_head_safe (answers : List String) (ms : List Char)
    (hinit : tidy_answer_initialism answers = some ms)
    (hlower : ∀ w ∈ answers, ∀ c ∈ w.data, c.toLower = c) :
    ∀ i j : Nat, i < j → ∀ p q : Char × String,
      (ms.zip answers)[i]? = some p → (ms.zip answers)[j]? = some q →
      ∀ b, p.2.data.head? = some b → ¬(q.1 = b) := by
  obtain ⟨hlen, htk, hidx⟩ := buildInitialism_sound answers [] ms hinit
  have hnd := buildInitialism_nodup answers [] ms (by simp) hinit
  simp only [List.length_nil, Nat.zero_add] at hlen hidx
  intro i j hij p q hp hq b hb
  rw [List.getElem?_zip_eq_some] at hp hq
  obtain ⟨hp1, hp2⟩ := hp
  obtain ⟨hq1, hq2⟩ := hq
  have hi : i < answers.length := by
    obtain ⟨hlt, hg⟩ := List.getElem?_eq_some.mp hp2
    exact hlt
  obtain ⟨w, m, hw, hm, hff⟩ := hidx i hi
  rw [hp2] at hw
  rw [hp1] at hm
  have hw2 : w = p.2 := by simpa using hw.symm
  have hm2 : m = p.1 := by simpa using hm.symm
  subst hw2
  subst hm2
  have hwmem : p.2 ∈ answers := by
    obtain ⟨hlt, hg⟩ := List.getElem?_eq_some.mp hp2
    exact hg ▸ List.getElem_mem hlt
  obtain ⟨t, hwdata⟩ : ∃ t, p.2.data = b :: t := by
    cases hdd : p.2.data with
    | nil => rw [hdd] at hb; exact absurd hb (by simp)
    | cons x t =>
      rw [hdd] at hb
      simp at hb
      subst hb
      exact ⟨t, rfl⟩
  have hblower : b.toLower = b := hlower p.2 hwmem b (by rw [hwdata]; simp)
  rw [firstFresh, hwdata] at hff
  by_cases hfresh : ((ms.take i).contains b.toLower) = false
  · have hnm : b.toLower ∉ ms.take i := by
      intro hmem
      have hcc : (ms.take i).contains b.toLower = true := by
        simpa [List.contains_eq_any_beq] using hmem
      rw [hcc] at hfresh
      exact absurd hfresh (by simp)
    rw [List.find?_cons_of_pos _ (by simpa using hnm)] at hff
    have hbm : b.toLower = p.1 := by simpa using hff
    rw [hblower] at hbm
    rw [hbm]
    exact nodup_getElem?_ne ms hnd i j (by omega) p.1 q.1 hp1 hq1
  · have hcont : (ms.take i).contains b.toLower = true := by
      cases hx : (ms.take i).contains b.toLower
      · exact absurd hx hfresh
      · rfl
    have hmemtk : b ∈ ms.take i := by
      rw [hblower] at hcont
      simpa [List.contains_eq_any_beq] using hcont
    obtain ⟨k, hk⟩ := List.mem_iff_getElem?.mp hmemtk
    obtain ⟨hktl, hget⟩ := List.getElem?_eq_some.mp hk
    have hki : k < i := by
      simp at hktl
      omega
    have hk2 : ms[k]? = some b := by
      rw [← hk, List.getElem?_take]
      simp [hki]
    exact nodup_getElem?_ne ms hnd k j (by omega) b q.1 hk2 hq1


/-- The resolution rule as the claim words it: the INPUT LINE's first
character, compared case-insensitively against the accelerators, selects the
action word; empty input and a non-matching first character yield `""`. -/
def claimedMenuResolution (ms : List Char) (answers : List String)
    (line : String) : String :=
  match line.data with
  | [] => ""
  | a :: _ =>
    match (ms.zip answers).find? (fun p => p.1 = a.toLower) with
    | some p => p.2
    | none => ""

/-- The resolution `tidy_answer` actually performs: the first character of
the STRIPPED AND LOWER-CASED line selects the action word; a line that is
empty after stripping, and a non-matching first character, yield `""`
(the empty stripped line is returned as is, which is `""`). -/
def amendedMenuResolution (ms : List Char) (answers : List String)
    (line : String) : String :=
  match (pyLower (pyStrip line)).data with
  | [] => ""
  | a :: _ =>
    match (ms.zip answers).find? (fun p => p.1 = a) with
    | some p => p.2
    | none => ""

theorem c7_menu_resolution (answers : List String) (ms : List Char)
    (line : String)
    (hinit : tidy_answer_initialism answers = some ms)
    (hlower : ∀ w ∈ answers, ∀ c ∈ w.data, c.toLower = c) :
    tidy_answer answers line = some (amendedMenuResolution ms answers line) := by
  obtain ⟨hlen, -, -⟩ := buildInitialism_sound answers [] ms hinit
  simp only [List.length_nil, Nat.zero_add] at hlen
  rw [tidy_answer, hinit, amendedMenuResolution]
  cases hd : (pyLower (pyStrip line)).data with
  | nil =>
    have hempty : pyLower (pyStrip line) = "" := congrArg String.mk hd
    simp only [hd, hempty]
  | cons a t =>
    simp only [hd]
    by_cases hc : ms.contains a = true
    · rw [if_pos hc]
      have hmem : a ∈ ms := by simpa [List.contains_eq_any_beq] using hc
      obtain ⟨i, hi⟩ := List.mem_iff_getElem?.mp hmem
      obtain ⟨hilt, -⟩ := List.getElem?_eq_some.mp hi
      have hia : i < answers.length := by omega
      have hz : (ms.zip answers)[i]? = some (a, answers[i]) :=
        List.getElem?_zip_eq_some.mpr ⟨hi, List.getElem?_eq_getElem hia⟩
      have hzmem : (a, answers[i]) ∈ ms.zip answers := by
        obtain ⟨hlt, hg⟩ := List.getElem?_eq_some.mp hz
        exact hg ▸ List.getElem_mem hlt
      have hfind : ((ms.zip answers).find? (fun p => p.1 = a)).isSome :=
        List.find?_isSome.mpr ⟨_, hzmem, by simp⟩
      rw [resolveLoop_find (ms.zip answers) (pyLower (pyStrip line)) a
        (by rw [hd]; rfl) (zip_head_safe answers ms hinit hlower)]
      cases hfs : (ms.zip answers).find? (fun p => p.1 = a) with
      | none => rw [hfs] at hfind; exact absurd hfind (by simp)
      | some pr => rfl
    · have hc2 : ms.contains a = false := by
        cases hx : ms.contains a
        · rfl
        · exact absurd hx hc
      rw [if_neg (by rw [hc2]; exact Bool.false_ne_true)]
      have hnone : (ms.zip answers).find? (fun p => p.1 = a) = none := by
        apply List.find?_eq_none.mpr
        intro x hx
        have hx1 : x.1 ∈ ms := by
          obtain ⟨c, w⟩ := x
          exact (List.of_mem_zip hx).1
        simp only [decide_eq_true_eq]
        intro hxe
        rw [hxe] at hx1
        have : ms.contains a = true := by
          simpa [List.contains_eq_any_beq] using hx1
        rw [this] at hc2
        exact absurd hc2 (by simp)
      rw [hnone]

/-- C7: the claim resolves the raw line's first character, but `tidy_answer`
strips and lower-cases the line first: the input `" b"` resolves to `"back"`,
while the claim's reading of "the input's first character" (the space) matches
no accelerator and yields `""`. -/
theorem c7_counterexample :
    tidy_answer_initialism ["default", "back", "quit"]
        = some ['d', 'b', 'q'] ∧
    tidy_answer ["default", "back", "quit"] " b" = some "back" ∧
    claimedMenuResolution ['d', 'b', 'q'] ["default", "back", "quit"] " b"
        = "" ∧
    ¬(some (claimedMenuResolution ['d', 'b', 'q'] ["default", "back", "quit"]
        " b") = tidy_answer ["default", "back", "quit"] " b") := by
  refine ⟨rfl, rfl, rfl, by decide⟩

/-- C7 (amended): for a menu whose action words are lower-case (as at every
call site), `tidy_answer` resolves the line by the first character of its
STRIPPED AND LOWER-CASED form: an input empty after stripping yields `""`,
a matching first character yields the unique word owning that accelerator,
and a non-matching one yields `""`. -/
theorem c7_menu_resolution_amended (answers : List String) (ms : List Char)
    (line : String)
    (hinit : tidy_answer_initialism answers = some ms)
    (hlower : ∀ w ∈ answers, ∀ c ∈ w.data, c.toLower = c) :
    tidy_answer answers line = some (amendedMenuResolution ms answers line) :=
  c7_menu_resolution answers ms line hinit hlower

/-- Witness for C7: `" B"` strips and lower-cases to `"b"` and resolves
to `"back"`. -/
theorem c7_menu_resolution_amended_witness :
    tidy_answer ["default", "back", "quit"] " B"
        = some (amendedMenuResolution ['d', 'b', 'q']
            ["default", "back", "quit"] " B") ∧
    amendedMenuResolution ['d', 'b', 'q'] ["default", "back", "quit"] " B"
        = "back" :=
  ⟨c7_menu_resolution_amended ["default", "back", "quit"] ['d', 'b', 'q'] " B"
      rfl (by decide), rfl⟩

/-- C2: when the initialism derivation succeeds, every action word receives
exactly one accelerator, the accelerators are pairwise distinct, and each is
the first character of its word (scanned left to right, lower-cased) not
already used by an earlier word; when it fails, some word has no character
free of the accelerators accumulated over the earlier words, and the editor
exits with the `Undetermined mnemonics.` diagnostic (modelled as `none`). -/
theorem c2_mnemonic_assignment (answers : List String) :
    (∀ ms, tidy_answer_initialism answers = some ms →
      ms.length = answers.length ∧ ms.Nodup ∧
      ∀ i, i < answers.length → ∃ w m, answers[i]? = some w ∧
        ms[i]? = some m ∧ firstFresh (ms.take i) w = some m) ∧
    (tidy_answer_initialism answers = none →
      ∃ i, i < answers.length ∧ ∃ ps w,
        buildInitialism [] (answers.take i) = some ps ∧
        answers[i]? = some w ∧ firstFresh ps w = none) := by
  constructor
  · intro ms h
    obtain ⟨hlen, -, hidx⟩ := buildInitialism_sound answers [] ms h
    have hnd := buildInitialism_nodup answers [] ms (by simp) h
    simp only [List.length_nil, Nat.zero_add] at hlen hidx
    exact ⟨hlen, hnd, hidx⟩
  · intro h
    exact buildInitialism_none answers [] h

/-- Witness for C2: the main menu's words get the accelerators
`m t e d q`, pairwise distinct; the colliding list `["ab", "a"]` aborts,
`"a"` having no character outside the accumulated `['a']`. -/
theorem c2_mnemonic_assignment_witness :
    (tidy_answer_initialism ["modify", "toggle", "empty", "default", "quit"]
        = some ['m', 't', 'e', 'd', 'q'] ∧
      (['m', 't', 'e', 'd', 'q'] : List Char).Nodup) ∧
    tidy_answer_initialism ["ab", "a"] = none ∧
    (∃ i, i < (["ab", "a"] : List String).length ∧ ∃ ps w,
      buildInitialism [] ((["ab", "a"] : List String).take i) = some ps ∧
      (["ab", "a"] : List String)[i]? = some w ∧ firstFresh ps w = none) :=
  ⟨⟨rfl, ((c2_mnemonic_assignment
      ["modify", "toggle", "empty", "default", "quit"]).1
      ['m', 't', 'e', 'd', 'q'] rfl).2.1⟩,
    rfl, (c2_mnemonic_assignment ["ab", "a"]).2 rfl⟩

end Configuration
